import Mathlib

/-!
Shallow embedding of the tauri-inliner crate (src/lib.rs, src/binary.rs,
src/js_css.rs) and proofs about its resource-resolution and CSS-inlining
engine.

Strings are modelled as `List Char`, raw bytes as `List Nat` (values < 256).
External capabilities (filesystem reads, HTTP requests, URL parsing/joining,
the extension→MIME table read from content-type.json) are parameters of a
`FetchEnv` record, since they are external collaborators of the code under
verification.  Regex-based text transformations are embedded as executable
scanner functions whose behaviour matches the concrete regexes used by the
source on newline-free inputs (matching is documented at each definition).
-/

deriving instance DecidableEq for Except

namespace Inliner

/-- ASCII fragment of the regex character class `\s` (Rust's `\s` also covers
further Unicode whitespace; the inputs handled here are ASCII). -/
def isWs (c : Char) : Bool :=
  c == ' ' || c == '\t' || c == '\n' || c == '\r' || c == '\x0b' || c == '\x0c'

/-- Leading-whitespace skipper used by several scanners. -/
def skipWs : List Char → List Char
  | [] => []
  | c :: rest => if isWs c then skipWs rest else c :: rest

/-- Rust `str::trim` (ASCII fragment). -/
def trimWs (l : List Char) : List Char :=
  ((skipWs l).reverse |> skipWs).reverse

/-- Base64 standard-alphabet digit (as produced by `base64::encode`,
lib.rs:138). -/
def b64Val (n : Nat) : Char :=
  if n < 26 then Char.ofNat (65 + n)
  else if n < 52 then Char.ofNat (97 + (n - 26))
  else if n < 62 then Char.ofNat (48 + (n - 52))
  else if n = 62 then '+'
  else '/'

/-- Inverse base64 digit value (standard RFC 4648 alphabet). -/
def b64Inv (c : Char) : Nat :=
  if 65 ≤ c.toNat ∧ c.toNat ≤ 90 then c.toNat - 65
  else if 97 ≤ c.toNat ∧ c.toNat ≤ 122 then c.toNat - 97 + 26
  else if 48 ≤ c.toNat ∧ c.toNat ≤ 57 then c.toNat - 48 + 52
  else if c = '+' then 62
  else 63

/-- `base64::encode` (standard alphabet, `=` padding) on a byte list, as used
at lib.rs:138. -/
def base64Encode : List Nat → List Char
  | [] => []
  | [b1] => [b64Val (b1 / 4), b64Val (b1 % 4 * 16), '=', '=']
  | [b1, b2] => [b64Val (b1 / 4), b64Val (b1 % 4 * 16 + b2 / 16), b64Val (b2 % 16 * 4), '=']
  | b1 :: b2 :: b3 :: rest =>
    b64Val (b1 / 4) :: b64Val (b1 % 4 * 16 + b2 / 16) :: b64Val (b2 % 16 * 4 + b3 / 64)
      :: b64Val (b3 % 64) :: base64Encode rest

/-- Standard base64 decoder (RFC 4648), used to state the round-trip property
of the claim; it is the mathematical inverse of `base64Encode` on well-formed
input. -/
def base64Decode : List Char → List Nat
  | c1 :: c2 :: c3 :: c4 :: rest =>
    if c3 = '=' then [b64Inv c1 * 4 + b64Inv c2 / 16]
    else if c4 = '=' then
      [b64Inv c1 * 4 + b64Inv c2 / 16, b64Inv c2 % 16 * 16 + b64Inv c3 / 4]
    else
      (b64Inv c1 * 4 + b64Inv c2 / 16) :: (b64Inv c2 % 16 * 16 + b64Inv c3 / 4)
        :: (b64Inv c3 % 4 * 64 + b64Inv c4) :: base64Decode rest
  | _ => []

/-- U+FFFD replacement character emitted by `String::from_utf8_lossy`. -/
def replChar : Char := Char.ofNat 0xFFFD

/-- UTF-8 continuation byte test. -/
def isCont (b : Nat) : Bool := decide (0x80 ≤ b ∧ b ≤ 0xBF)

/-- `String::from_utf8_lossy` (lib.rs:141,144): UTF-8 decoding where each
maximal invalid subpart becomes U+FFFD. -/
def utf8Lossy : List Nat → List Char
  | [] => []
  | b :: rest =>
    if b < 0x80 then Char.ofNat b :: utf8Lossy rest
    else if 0xC2 ≤ b ∧ b ≤ 0xDF then
      match rest with
      | [] => [replChar]
      | b2 :: rest2 =>
        if isCont b2 then Char.ofNat ((b - 0xC0) * 64 + (b2 - 0x80)) :: utf8Lossy rest2
        else replChar :: utf8Lossy (b2 :: rest2)
    else if 0xE0 ≤ b ∧ b ≤ 0xEF then
      match rest with
      | [] => [replChar]
      | b2 :: rest2 =>
        if (b = 0xE0 ∧ 0xA0 ≤ b2 ∧ b2 ≤ 0xBF) ∨ (b = 0xED ∧ 0x80 ≤ b2 ∧ b2 ≤ 0x9F)
            ∨ (b ≠ 0xE0 ∧ b ≠ 0xED ∧ isCont b2) then
          match rest2 with
          | [] => [replChar]
          | b3 :: rest3 =>
            if isCont b3 then
              Char.ofNat ((b - 0xE0) * 4096 + (b2 - 0x80) * 64 + (b3 - 0x80))
                :: utf8Lossy rest3
            else replChar :: utf8Lossy (b3 :: rest3)
        else replChar :: utf8Lossy (b2 :: rest2)
    else if 0xF0 ≤ b ∧ b ≤ 0xF4 then
      match rest with
      | [] => [replChar]
      | b2 :: rest2 =>
        if (b = 0xF0 ∧ 0x90 ≤ b2 ∧ b2 ≤ 0xBF) ∨ (b = 0xF4 ∧ 0x80 ≤ b2 ∧ b2 ≤ 0x8F)
            ∨ (b ≠ 0xF0 ∧ b ≠ 0xF4 ∧ isCont b2) then
          match rest2 with
          | [] => [replChar]
          | b3 :: rest3 =>
            if isCont b3 then
              match rest3 with
              | [] => [replChar]
              | b4 :: rest4 =>
                if isCont b4 then
                  Char.ofNat ((b - 0xF0) * 262144 + (b2 - 0x80) * 4096
                      + (b3 - 0x80) * 64 + (b4 - 0x80)) :: utf8Lossy rest4
                else replChar :: utf8Lossy (b4 :: rest4)
            else replChar :: utf8Lossy (b3 :: rest3)
        else replChar :: utf8Lossy (b2 :: rest2)
    else replChar :: utf8Lossy rest

/-!  Cache-key normalisation (lib.rs:160-161).  -/

/-- Scanner for `regex::Regex::new(r"\??#.*").replace_all(path, "")`:
each match deletes a `#` (together with one `?` standing immediately before
it) and everything after it up to the next newline, since `.` does not match
`\n`.  Mode `true` means a match is being deleted and scanning resumes at the
next newline. -/
def stripQFAux : Bool → List Char → List Char
  | _, [] => []
  | true, c :: rest => if c = '\n' then '\n' :: stripQFAux false rest else stripQFAux true rest
  | false, c :: rest =>
    if c = '#' then stripQFAux true rest
    else if c = '?' then
      match rest with
      | [] => ['?']
      | d :: rest2 =>
        if d = '#' then stripQFAux true rest2 else '?' :: stripQFAux false (d :: rest2)
    else c :: stripQFAux false rest

/-- The cache-key normalisation applied by `get` (lib.rs:160-161) before the
`data:` test, the cache lookup and the `load_path` call. -/
def stripQF (l : List Char) : List Char := stripQFAux false l

/-!
CSS minification, `compress_css` (js_css.rs:236-253): seven regex
`replace_all` passes applied in order:
`(\s+)`→`" "`, `:(\s+)`→`":"`, `/\*.*?\*`→`""`, `(\} )`→`"}"`,
`( \{)`→`"{"`, `(; )`→`";"`, `(\n+)`→`""`.
-/

/-- Pass 1, `(\s+)` → `" "`: every maximal whitespace run becomes one space.
Mode `true` means the previous character was whitespace already replaced. -/
def cwAux : Bool → List Char → List Char
  | _, [] => []
  | inRun, c :: rest =>
    if isWs c then
      if inRun then cwAux true rest else ' ' :: cwAux true rest
    else c :: cwAux false rest

/-- Pass 1 of `compress_css`. -/
def collapseWs (l : List Char) : List Char := cwAux false l

/-- Pass 2, `:(\s+)` → `":"`: a whitespace run directly after a colon is
deleted.  Mode `true` means whitespace is currently being deleted (the last
kept character was a colon, or further whitespace of the same run). -/
def scAux : Bool → List Char → List Char
  | _, [] => []
  | drop, c :: rest =>
    if drop && isWs c then scAux true rest
    else if c = ':' then ':' :: scAux true rest
    else c :: scAux false rest

/-- Pass 2 of `compress_css`. -/
def stripColonWs (l : List Char) : List Char := scAux false l

/-- State of the pass-3 scanner: `norm` outside any candidate match, `slash`
after a `/`, `inC` after `/*` while looking for the lazy closing `*` (the
accumulator holds the consumed characters, reversed, in case the attempt
fails at a newline or at the end of input and the text must be restored). -/
inductive CFState : Type
  | norm : CFState
  | slash : CFState
  | inC : List Char → CFState

/-- Pass 3, `/\*.*?\*` → `""` (lazy, `.` does not match `\n`): deletes from
each `/*` through the first following `*` on the same line; with no such `*`
the text is kept unchanged (an attempt abandoned at a newline or at the end
cannot hide another match, because the consumed span contains no `*`). -/
def cfAux : CFState → List Char → List Char
  | .norm, [] => []
  | .norm, c :: rest => if c = '/' then cfAux .slash rest else c :: cfAux .norm rest
  | .slash, [] => ['/']
  | .slash, c :: rest =>
    if c = '*' then cfAux (.inC []) rest
    else if c = '/' then '/' :: cfAux .slash rest
    else '/' :: c :: cfAux .norm rest
  | .inC pending, [] => '/' :: '*' :: pending.reverse
  | .inC pending, c :: rest =>
    if c = '*' then cfAux .norm rest
    else if c = '\n' then '/' :: '*' :: pending.reverse ++ '\n' :: cfAux .norm rest
    else cfAux (.inC (c :: pending)) rest

/-- Pass 3 of `compress_css`. -/
def stripCF (l : List Char) : List Char := cfAux .norm l

/-- Passes 4-6, `replace_all` of the two-character pattern `xy` by the single
character `k` (`"} "`→`"}"`, `" {"`→`"{"`, `"; "`→`";"`). -/
def replacePair (x y k : Char) : List Char → List Char
  | [] => []
  | [a] => [a]
  | a :: b :: rest =>
    if a = x ∧ b = y then k :: replacePair x y k rest
    else a :: replacePair x y k (b :: rest)

/-- Pass 7, `(\n+)` → `""`: all newlines removed. -/
def filterNl (l : List Char) : List Char := l.filter (fun c => c ≠ '\n')

/-- `compress_css` (js_css.rs:236-253). -/
def compressCss (l : List Char) : List Char :=
  filterNl (replacePair ';' ' ' ';'
    (replacePair ' ' '\x7b' '\x7b'
      (replacePair '\x7d' ' ' '\x7d'
        (stripCF (stripColonWs (collapseWs l))))))

/-!  The fetch layer: `Config`, `Error`, `load_path` and `get` (lib.rs).  -/

/-- The `Error` enum of lib.rs:20-30.  `invalidPath` is declared by the crate
but never constructed. -/
inductive Error : Type
  | invalidPath : List Char → Error
  | io : Error
  | httpRequest : Error
deriving DecidableEq, Repr

/-- The `Config` struct of lib.rs:37-45. -/
structure Config : Type where
  inline_fonts : Bool
  inline_remote : Bool
  max_inline_size : Nat
deriving DecidableEq, Repr

/-- `Config::default()` (lib.rs:47-56). -/
def defaultConfig : Config :=
  { inline_fonts := true, inline_remote := true, max_inline_size := 5000 }

/-- External collaborators of the fetch layer: URL parsing and joining (the
`url` crate), the blocking HTTP client (`reqwest`: an optional content-type
header and the body bytes, or a request error), filesystem reads (`std::fs`),
and the extension→MIME table parsed from the bundled content-type.json (not
part of src/; kept abstract, as the spec treats it as a provided input). -/
structure FetchEnv : Type where
  isUrl : List Char → Bool
  urlJoin : List Char → List Char → List Char
  urlToString : List Char → List Char
  http : List Char → Except Unit (Option (List Char) × List Nat)
  fsRead : List Char → Except Unit (List Nat)
  table : List Char → Option (List Char)

/-- `path.split('.').last()` (lib.rs:81,127): the segment after the last dot,
or the whole string when no dot occurs — the iterator is never empty, so the
`None` arm at lib.rs:144 is unreachable. -/
def extOf (l : List Char) : List Char := ((l.reverse.takeWhile (fun c => c ≠ '.'))).reverse

/-- Unix model of `Path::is_absolute` (lib.rs:107). -/
def isAbsPath : List Char → Bool
  | '/' :: _ => true
  | _ => false

/-- Unix model of `PathBuf::join` on a relative or absolute right operand
(lib.rs:110, js_css.rs:173-179, 209-215): an absolute right operand replaces
the base; otherwise a single separator is inserted when needed. -/
def joinPath (root rel : List Char) : List Char :=
  if isAbsPath rel then rel
  else if root.getLast? = some '/' then root ++ rel
  else root ++ '/' :: rel

/-- `serde_json::Value::to_string` on the string stored in the MIME table
(lib.rs:84): the compact JSON rendering, which wraps the string in quotes
(MIME types contain no character that JSON would escape). -/
def jsonQuote (v : List Char) : List Char := '"' :: v ++ ['"']

/-- `FONT_EXTENSIONS.iter().any(|f| path.ends_with(f))` (lib.rs:17,65). -/
def hasFontExt (path : List Char) : Bool :=
  [".eot", ".woff2", ".woff", ".tff"].any (fun s => s.toList.isSuffixOf path)

/-- The `raw` binding of `load_path` (lib.rs:73-118): remote dispatch with
content-type validation, or local filesystem read.  `none` is a deliberate
exclusion, an `Error` aborts `load_path`. -/
def rawOf (env : FetchEnv) (cfg : Config) (path root : List Char) :
    Except Error (Option (List Nat)) :=
  if env.isUrl path then
    if cfg.inline_remote then
      match env.http path with
      | .error _ => .error .httpRequest
      | .ok (ctHeader, body) =>
        match ctHeader with
        | some ct =>
          let expected :=
            match env.table (extOf path) with
            | some v => jsonQuote v
            | none => ct
          if ct ≠ expected then .ok none else .ok (some body)
        | none => .ok (some body)
    else .ok none
  else
    let fp := if isAbsPath path then path else joinPath root path
    match env.fsRead fp with
    | .error _ => .error .io
    | .ok bytes => .ok (some bytes)

/-- `load_path` (lib.rs:64-151): font filter, raw fetch, size check, then
encoding — a data URI via the MIME table and base64, or lossy UTF-8 text. -/
def loadPath (env : FetchEnv) (cfg : Config) (path root : List Char) :
    Except Error (Option (List Char)) :=
  if ¬cfg.inline_fonts ∧ hasFontExt path then .ok none
  else
    match rawOf env cfg path root with
    | .error e => .error e
    | .ok none => .ok none
    | .ok (some raw) =>
      if raw.length > cfg.max_inline_size then .ok none
      else
        .ok (some (match env.table (extOf path) with
          | some ct => "data:".toList ++ ct ++ ";base64,".toList ++ base64Encode raw
          | none => utf8Lossy raw))

/-- The pass-scoped cache `HashMap<String, Option<String>>`, as an
association list where the most recent insertion shadows earlier ones. -/
abbrev Cache : Type := List (List Char × Option (List Char))

/-- `HashMap::get`. -/
def cacheFind : Cache → List Char → Option (Option (List Char))
  | [], _ => none
  | (k, v) :: rest, key => if k = key then some v else cacheFind rest key

/-- `get` (lib.rs:153-181): normalise the reference, short-circuit `data:`
addresses, then consult the cache; on a miss call `load_path`, caching the
result only when it is `Ok` — an `Err` is logged and turned into `Ok(None)`
without touching the cache.  The returned `Bool` records whether `load_path`
was invoked.  Every branch of the source returns `Ok`, so the result carries
no error component. -/
def getRun (env : FetchEnv) (cfg : Config) (cache : Cache) (path root : List Char) :
    Option (List Char) × Cache × Bool :=
  let p := stripQF path
  if "data:".toList.isPrefixOf p then (none, cache, false)
  else
    match cacheFind cache p with
    | some res => (res, cache, false)
    | none =>
      match loadPath env cfg p root with
      | .ok res => (res, (p, res) :: cache, true)
      | .error _ => (none, cache, true)

/-!  Media/icon element rewriting, `inline_base64` (binary.rs:22-28).  -/

/-- Attribute map of one element. -/
abbrev Attrs : Type := List (List Char × List Char)

/-- `attributes.get`. -/
def attrsFind : Attrs → List Char → Option (List Char)
  | [], _ => none
  | (k, v) :: rest, key => if k = key then some v else attrsFind rest key

/-- `attributes.insert`. -/
def attrsInsert (attrs : Attrs) (key v : List Char) : Attrs := (key, v) :: attrs

/-- Processing of one media/icon element by `inline_base64` (binary.rs:22-28):
read the `src`/`href` attribute, resolve it through the cache, and overwrite
the attribute only when resolution produced content. -/
def processMediaElement (env : FetchEnv) (cfg : Config) (cache : Cache)
    (attrs : Attrs) (attrName root : List Char) : Attrs × Cache :=
  match attrsFind attrs attrName with
  | none => (attrs, cache)
  | some source =>
    match getRun env cfg cache source root with
    | (some resolved, cacheAfter, _) => (attrsInsert attrs attrName resolved, cacheAfter)
    | (none, cacheAfter, _) => (attrs, cacheAfter)

/-!  Entry points (lib.rs:188-217).  -/

/-- Outcome of running an entry point: a panic (an `unwrap` on an `Err`), an
`Error` returned to the caller, or success. -/
inductive RunOutcome (α : Type) : Type
  | panicked : RunOutcome α
  | failed : Error → RunOutcome α
  | ok : α → RunOutcome α
deriving DecidableEq

/-- The start of `inline_html_string` (lib.rs:200-206): the fresh cache and
`root_path.as_ref().canonicalize().unwrap()` — a canonicalisation failure is
unwrapped, aborting the process, before any document work begins.  The
canonicaliser (an `std::fs` call) is passed as an oracle; the result is the
canonical root the pass continues with. -/
def inlineHtmlStringStart (canonicalize : List Char → Except Unit (List Char))
    (root : List Char) : RunOutcome (List Char) :=
  match canonicalize root with
  | .error _ => .panicked
  | .ok canonicalRoot => .ok canonicalRoot

/-- The start of `inline_file` (lib.rs:188-191):
`fs::read_to_string(&file_path)?` — a read failure is converted by `?` into
`Error::Io` and returned to the caller. -/
def inlineFileStart (readToString : List Char → Except Unit (List Char))
    (filePath : List Char) : RunOutcome (List Char) :=
  match readToString filePath with
  | .error _ => .failed .io
  | .ok html => .ok html

/-!
The CSS inliner, `inline_css` / `inline_css_path` (js_css.rs:129-234).
-/

/-- State of the comment-removal scanner (`comment_remover`,
js_css.rs:146): `norm` outside a candidate, `slash` after `/`, `inC` inside
`/*...` before any closing star, `star` inside after one or more stars.  The
accumulator holds the characters consumed after `/*` (reversed) so that an
attempt that never finds `*/` can restore them. -/
inductive DCState : Type
  | norm : DCState
  | slash : DCState
  | inC : List Char → DCState
  | star : List Char → DCState

/-- `/\*[^*]*\*+(?:[^/*][^*]*\*+)*/` (js_css.rs:146) deletes each complete
comment, i.e. everything from `/*` through the first following `*/`
(newlines allowed inside); a `/*` with no closing `*/` is left unchanged. -/
def dcAux : DCState → List Char → List Char
  | .norm, [] => []
  | .norm, c :: rest => if c = '/' then dcAux .slash rest else c :: dcAux .norm rest
  | .slash, [] => ['/']
  | .slash, c :: rest =>
    if c = '*' then dcAux (.inC []) rest
    else if c = '/' then '/' :: dcAux .slash rest
    else '/' :: c :: dcAux .norm rest
  | .inC pending, [] => '/' :: '*' :: pending.reverse
  | .inC pending, c :: rest =>
    if c = '*' then dcAux (.star (c :: pending)) rest
    else dcAux (.inC (c :: pending)) rest
  | .star pending, [] => '/' :: '*' :: pending.reverse
  | .star pending, c :: rest =>
    if c = '/' then dcAux .norm rest
    else if c = '*' then dcAux (.star (c :: pending)) rest
    else dcAux (.inC (c :: pending)) rest

/-- Comment removal, the first step of `inline_css` (js_css.rs:154). -/
def dropComments (l : List Char) : List Char := dcAux .norm l

/-- Fuelled scanner for Rust `str::replace` (literal pattern, all
occurrences, left to right, replacements not rescanned).  The fuel only
bounds the recursion; `replaceSub` supplies enough for any input. -/
def replaceSubF (pat repl : List Char) : Nat → List Char → List Char
  | 0, l => l
  | _ + 1, [] => []
  | fuel + 1, c :: rest =>
    if pat ≠ [] ∧ pat.isPrefixOf (c :: rest) then
      repl ++ replaceSubF pat repl fuel ((c :: rest).drop pat.length)
    else c :: replaceSubF pat repl fuel rest

/-- Rust `str::replace` with a non-empty literal pattern. -/
def replaceSub (pat repl l : List Char) : List Char := replaceSubF pat repl (l.length + 1) l

/-- Does `pat` occur as a contiguous substring of the list?  This is the
occurrence test `replaceSubF` performs at each position, so
`hasSub pat l = false` says `str::replace` finds nothing to replace. -/
def hasSub (pat : List Char) : List Char → Bool
  | [] => pat.isPrefixOf []
  | c :: rest => pat.isPrefixOf (c :: rest) || hasSub pat rest

/-- Body of one `@import` match: `(@import)(\s*.*?);` (js_css.rs:148).
Capture 2 runs from right after `@import` to the first `;`, where a newline
is allowed only inside the leading whitespace (matched by the greedy `\s*`);
after a non-whitespace character only `.` matches, which excludes newlines.
`inWs` records whether everything consumed so far is whitespace.  Returns
capture 2 and the text after the `;`, or `none` when no match starts here. -/
def importBody : Bool → List Char → Option (List Char × List Char)
  | _, [] => none
  | inWs, c :: rest =>
    if c = ';' then some ([], rest)
    else if c = '\n' ∧ ¬inWs then none
    else
      match importBody (inWs && isWs c) rest with
      | some (body, after) => some (c :: body, after)
      | none => none

/-- Characters through which the `@import` callback's reference extraction
(js_css.rs:155-166) is transparent: no whitespace (so Rust `trim` and the
`split(' ')` tokenisation cannot touch them) and none of the characters the
callback deletes outright (`'`, `"`, `}`, `(`, `)`, `;`). -/
def cleanRefChar (c : Char) : Bool :=
  !isWs c && c != '\'' && c != '"' && c != '\x7d' && c != '(' && c != ')' && c != ';'

/-- Characters allowed in a media condition that the `@import` callback
keeps intact: whitespace only as a plain space, and none of the deleted
characters. -/
def cleanCondChar (c : Char) : Bool :=
  (!isWs c || c == ' ') && c != '\'' && c != '"' && c != '\x7d' && c != '(' && c != ')'
    && c != ';'

/-- Quote characters accepted by the `url(...)` pattern. -/
def isQuote (c : Char) : Bool := c == '"' || c == '\''

/-- Does `["']?\s*?\)` match a prefix of `l`?  Returns the remainder after
the closing parenthesis. -/
def closerMatch (l : List Char) : Option (List Char) :=
  let l1 :=
    match l with
    | c :: rest => if isQuote c then rest else l
    | [] => l
  match skipWs l1 with
  | ')' :: rest => some rest
  | _ => none

/-- The lazy capture `([^"')]+?)` of the `url_finder` regex: accumulate
content characters (anything except quotes and `)`), stopping at the first
position where the closing pattern matches.  Returns the capture and the
text after the closing parenthesis. -/
def readContent : List Char → List Char → Option (List Char × List Char)
  | [], _ => none
  | c :: rest, acc =>
    if isQuote c ∨ c = ')' then none
    else
      match closerMatch rest with
      | some after => some ((c :: acc).reverse, after)
      | none => readContent rest (c :: acc)

/-- One backtracking attempt of the part of the `url_finder` regex that
follows `\(\s*?`, at a fixed position: the optional opening quote `["']?`
(taken greedily; the zero-width alternative can never succeed afterwards,
since the content class excludes quotes), then the lazy content scan. -/
def tryCapture (l : List Char) : Option (List Char × List Char) :=
  let l4 :=
    match l with
    | c :: rest => if isQuote c then rest else l
    | [] => l
  readContent l4 []

/-- Backtracking loop of the lazy `\s*?` right after the opening
parenthesis: the engine first attempts the rest of the pattern consuming no
whitespace, and only when that attempt fails consumes one whitespace
character and retries.  Whitespace the attempt can absorb therefore stays
inside capture 1: `url( x)` captures ` x`, while `url( 'x')` captures `x`
(the zero-consumption attempt dies on the quote). -/
def parseAfterParen : List Char → Option (List Char × List Char)
  | [] => none
  | c :: rest =>
    match tryCapture (c :: rest) with
    | some r => some r
    | none => if isWs c then parseAfterParen rest else none

/-- One attempt of `url\s*?\(\s*?["']?([^"')]+?)["']?\s*?\)` (js_css.rs:149)
at a position right after the literal `url`: the first lazy `\s*?` must
reach the `(` exactly, then the second `\s*?` is resolved by the
backtracking loop `parseAfterParen`.  Returns capture 1 and the remainder
after the match, or `none`. -/
def parseUrlRef (l : List Char) : Option (List Char × List Char) :=
  match skipWs l with
  | '(' :: l2 => parseAfterParen l2
  | _ => none

/-- Address resolution for one `url(...)` reference (js_css.rs:204-216):
URL-join against a URL base, else URL parse of the reference itself, else
path join against the root. -/
def resolveUrlRef (env : FetchEnv) (ref cssPath rootPath : List Char) : List Char :=
  if env.isUrl cssPath then env.urlJoin cssPath ref
  else if env.isUrl ref then env.urlToString ref
  else joinPath rootPath ref

/-- The `url_finder` replacement callback (js_css.rs:200-229): `data:`
references are kept whole; otherwise the reference is resolved and looked up
through the cache, and rewritten as `url('<content>')` — minified first when
the resolved address ends in `.css` — while a reference the cache cannot
resolve is rewritten as `url('<reference>')`, keeping the reference text. -/
def urlReplacement (env : FetchEnv) (cfg : Config) (cache : Cache)
    (ref caps0 cssPath rootPath : List Char) : List Char × Cache :=
  if "data:".toList.isPrefixOf (trimWs ref) then (caps0, cache)
  else
    let urlPath := resolveUrlRef env ref cssPath rootPath
    match getRun env cfg cache urlPath rootPath with
    | (some resolved, cacheAfter, _) =>
      ("url('".toList
         ++ (if ".css".toList.isSuffixOf urlPath then compressCss resolved else resolved)
         ++ "')".toList, cacheAfter)
    | (none, cacheAfter, _) => ("url('".toList ++ ref ++ "')".toList, cacheAfter)

/-- `url_finder.replace_all` (js_css.rs:200-229) as a fuelled left-to-right
scan; the caller supplies fuel larger than the text length, which always
suffices since every step consumes at least one character. -/
def urlPassF (env : FetchEnv) (cfg : Config) (cssPath rootPath : List Char) :
    Nat → Cache → List Char → Option (List Char × Cache)
  | 0, _, _ => none
  | _ + 1, cache, [] => some ([], cache)
  | fuel + 1, cache, c :: rest =>
    match (if c = 'u' ∧ "rl".toList.isPrefixOf rest then parseUrlRef (rest.drop 2) else none) with
    | some (ref, after) =>
      let scanned := rest.drop 2
      let caps0 := "url".toList ++ scanned.take (scanned.length - after.length)
      let (repl, c2) := urlReplacement env cfg cache ref caps0 cssPath rootPath
      (match urlPassF env cfg cssPath rootPath fuel c2 after with
       | some (out, c3) => some (repl ++ out, c3)
       | none => none)
    | none =>
      (match urlPassF env cfg cssPath rootPath fuel cache rest with
       | some (out, c2) => some (c :: out, c2)
       | none => none)

/-- `import_finder.replace_all` (js_css.rs:155-198) as a fuelled
left-to-right scan.  `process` resolves and recursively inlines one imported
address (the body of `inline_css_path`); `resolveImport` turns the extracted
reference into an address.  For each match the capture is trimmed, a leading
`url` causes every occurrence of `url` to be deleted, quote/brace/paren/
semicolon characters are removed, the first space-separated token is the
address and any remainder a media condition; the recursively inlined and
minified content replaces the statement, wrapped in `@media <cond>{...}`
when a condition is present; an error from `process` contributes an empty
replacement and overwrites the `is_alright` slot (the last error wins). -/
def importPassF
    (process : Cache → List Char → Option (Except Error (Option (List Char)) × Cache))
    (resolveImport : List Char → List Char) :
    Nat → Cache → List Char → Option (List Char × Cache × Option Error)
  | 0, _, _ => none
  | _ + 1, cache, [] => some ([], cache, none)
  | fuel + 1, cache, c :: rest =>
    match (if c = '@' ∧ "import".toList.isPrefixOf rest then importBody true (rest.drop 6)
           else none) with
    | some (body, after) =>
      let mu0 := trimWs body
      let mu1 := if "url".toList.isPrefixOf mu0 then replaceSub "url".toList [] mu0 else mu0
      let mu := mu1.filter (fun d =>
        d ≠ '\'' ∧ d ≠ '"' ∧ d ≠ '\x7d' ∧ d ≠ '(' ∧ d ≠ ')' ∧ d ≠ ';')
      let cssUrl := mu.takeWhile (fun d => d ≠ ' ')
      (match process cache (resolveImport cssUrl) with
       | none => none
       | some (res, c2) =>
         (match res with
          | .error e =>
            (match importPassF process resolveImport fuel c2 after with
             | none => none
             | some (out, c3, errAfter) => some (out, c3, some (errAfter.getD e)))
          | .ok out0 =>
            let inlined := (out0.map compressCss).getD []
            let repl :=
              if mu.contains ' ' then
                "@media ".toList ++ replaceSub (cssUrl ++ [' ']) [] mu
                  ++ '\x7b' :: (inlined ++ ['\x7d'])
              else inlined
            (match importPassF process resolveImport fuel c2 after with
             | none => none
             | some (out, c3, errAfter) => some (repl ++ out, c3, errAfter))))
    | none =>
      (match importPassF process resolveImport fuel cache rest with
       | some (out, c2, err2) => some (c :: out, c2, err2)
       | none => none)

/-- `inline_css` (js_css.rs:139-234), with explicit recursion fuel: `none`
when the fuel is exhausted (the source recurses unboundedly on cyclic
imports).  A `None` stylesheet yields `Ok(None)`.  Otherwise: comments are
removed, each `@import` is replaced (recursing through the cache via the
body of `inline_css_path`), each `url(...)` is rewritten, the result is
minified, and the collected `is_alright` error — only ever set by a
recursive failure — is returned in place of the text. -/
def inlineCssF (env : FetchEnv) (cfg : Config) :
    Nat → Cache → Option (List Char) → List Char → List Char →
    Option (Except Error (Option (List Char)) × Cache)
  | 0, _, _, _, _ => none
  | fuel + 1, cache, css, cssPath, rootPath =>
    match css with
    | none => some (.ok none, cache)
    | some text =>
      let t1 := dropComments text
      let process := fun (c : Cache) (p : List Char) =>
        let r := getRun env cfg c p rootPath
        inlineCssF env cfg fuel r.2.1 r.1 p rootPath
      let resolveImport := fun (cssUrl : List Char) =>
        if env.isUrl cssPath then env.urlJoin cssPath cssUrl else joinPath rootPath cssUrl
      match importPassF process resolveImport (t1.length + 1) cache t1 with
      | none => none
      | some (t2, c2, errOpt) =>
        match urlPassF env cfg cssPath rootPath (t2.length + 1) c2 t2 with
        | none => none
        | some (t3, c3) =>
          match errOpt with
          | some e => some (.error e, c3)
          | none => some (.ok (some (compressCss t3)), c3)

/-- `inline_css_path` (js_css.rs:129-137): resolve the address through the
cache, then run `inline_css` on the result with the address as base. -/
def inlineCssPathF (env : FetchEnv) (cfg : Config) (fuel : Nat) (cache : Cache)
    (cssPath rootPath : List Char) : Option (Except Error (Option (List Char)) × Cache) :=
  let r := getRun env cfg cache cssPath rootPath
  inlineCssF env cfg fuel r.2.1 r.1 cssPath rootPath

/-!  Invariants used to analyse `compress_css`.  -/

/-- Every adjacent pair of characters satisfies `g`. -/
def pairsOK (g : Char → Char → Bool) : List Char → Bool
  | a :: b :: rest => g a b && pairsOK g (b :: rest)
  | _ => true

/-- Every whitespace character is a plain space. -/
def wsOnlySpace (l : List Char) : Bool := l.all (fun c => !isWs c || c == ' ')

/-- No two adjacent whitespace characters. -/
abbrev noWsWs : List Char → Bool := pairsOK (fun a b => !(isWs a && isWs b))

/-- No whitespace directly after a colon. -/
abbrev noColonWs : List Char → Bool := pairsOK (fun a b => !(a == ':' && isWs b))

/-- No occurrence of the comment opener `/*`. -/
abbrev noSlashStar : List Char → Bool := pairsOK (fun a b => !(a == '/' && b == '*'))

/-- No space directly after a closing brace. -/
abbrev noBraceSp : List Char → Bool := pairsOK (fun a b => !(a == '\x7d' && b == ' '))

/-- No space directly before an opening brace. -/
abbrev noSpBrace : List Char → Bool := pairsOK (fun a b => !(a == ' ' && b == '\x7b'))

/-- No space directly after a semicolon. -/
abbrev noSemiSp : List Char → Bool := pairsOK (fun a b => !(a == ';' && b == ' '))

/-- No newline character. -/
def noNl (l : List Char) : Bool := l.all (fun c => c ≠ '\n')

/-!  Concrete instantiations used by witnesses and counterexamples.  -/

/-- Byte list of an ASCII string. -/
def asciiBytes (s : String) : List Nat := s.toList.map Char.toNat

/-- Environment whose every fetch fails: local reads and HTTP requests both
return errors. -/
def envAllFail : FetchEnv :=
  { isUrl := fun _ => false
    urlJoin := fun a _ => a
    urlToString := fun a => a
    http := fun _ => .error ()
    fsRead := fun _ => .error ()
    table := fun _ => none }

/-- Environment with one local file, `/root/b.css`, holding
`body{color:red;}`, and an empty MIME table. -/
def envBCss : FetchEnv :=
  { envAllFail with
    fsRead := fun p =>
      if p = "/root/b.css".toList then .ok (asciiBytes "body\x7bcolor:red;\x7d") else .error () }

/-- Environment with one local file, `/root/c.css`, holding
`em{color:blue}`, and no other file — in particular no `curl.css`.  Used to
show the replace-all of `url` (js_css.rs:157-161) mangling the address of
`@import url(curl.css);` into `c.css`. -/
def envCCss : FetchEnv :=
  { envAllFail with
    fsRead := fun p =>
      if p = "/root/c.css".toList then .ok (asciiBytes "em\x7bcolor:blue\x7d") else .error () }

/-- Environment where every local read returns the two bytes `hi` and the
MIME table is empty. -/
def envPlainText : FetchEnv :=
  { envAllFail with fsRead := fun _ => .ok (asciiBytes "hi") }

/-- Environment for the remote content-type check: every address is a URL,
the response carries the header `text/css`, and the MIME table maps `css`
to exactly `text/css`. -/
def envRemoteCss : FetchEnv :=
  { envAllFail with
    isUrl := fun _ => true
    http := fun _ => .ok (some "text/css".toList, asciiBytes "body")
    table := fun e => if e = "css".toList then some "text/css".toList else none }

/-- Environment with a MIME table entry for `png` and a three-byte file. -/
def envPng : FetchEnv :=
  { envAllFail with
    fsRead := fun _ => .ok [0, 100, 255]
    table := fun e => if e = "png".toList then some "image/png".toList else none }

/-!
#  Theorems

The remainder of the file settles the specification claims against the
embedding above.
-/

/-- C6, counterexample.  The claim says `get` strips any query string and
any fragment before using the reference as cache key, so that two
references differing only in their query string map to the same key.  The
regex `\??#.*` of lib.rs:160 only fires on a `#`: a query string with no
fragment survives normalisation, and `a.css?v=1` and `a.css?v=2` produce
two distinct cache keys. -/
theorem c6_counterexample :
    stripQF "a.css?v=1".toList = "a.css?v=1".toList ∧
    stripQF "a.css?v=1".toList ≠ stripQF "a.css?v=2".toList := by decide

/-- C1, counterexample.  The claim says a second `get` on the same
normalised address never invokes `load_path` again.  When the first
`load_path` fails (here: every filesystem read errors), `get` converts the
error to `Ok(None)` *without caching* (lib.rs:175-178), so the second call
misses the cache and invokes `load_path` a second time: both calls report
the load flag `true`. -/
theorem c1_counterexample :
    (getRun envAllFail defaultConfig [] "a.png".toList "/r".toList).2.2 = true ∧
    (getRun envAllFail defaultConfig
      (getRun envAllFail defaultConfig [] "a.png".toList "/r".toList).2.1
      "a.png".toList "/r".toList).2.2 = true := by decide

/-- C3.  The claim says a remote response whose content-type header equals
the MIME-table entry for the address extension is not excluded.  The code
compares the header against `Value::to_string()` of the table entry
(lib.rs:84), which is the JSON rendering *with quotes*: for extension `css`
with table entry `text/css` and header exactly `text/css`, the comparison
is `"text/css" ≠ "\"text/css\""` and `load_path` returns `Ok(None)` — the
asset is excluded even though the header matches the table entry. -/
theorem c3_matching_header_excluded :
    envRemoteCss.table (extOf "http://x/a.css".toList) = some "text/css".toList ∧
    envRemoteCss.http "http://x/a.css".toList = .ok (some "text/css".toList, asciiBytes "body") ∧
    loadPath envRemoteCss defaultConfig "http://x/a.css".toList "/r".toList = .ok none := by
  decide

/-- C5, counterexample.  Two refutations of the claim.  First, its example:
`@import url(b.css) screen;` with `b.css` = `body{color:red;}` inlines to
`@media screen{body{color:red;}}`, not to the claimed
`@media screen{body{color:red}}` — no `compress_css` pass removes a
semicolon directly before a closing brace.  Second, its universal part: the
callback deletes *every* occurrence of `url` in the extracted reference
(js_css.rs:157-161), so `@import url(curl.css);` is mangled into an import
of `c.css` — in an environment where only `/root/c.css` exists, the import
of the non-existent `curl.css` still inlines content, read from the wrong
file. -/
theorem c5_counterexample :
    (inlineCssF envBCss defaultConfig 3 [] (some "@import url(b.css) screen;".toList)
        "/root".toList "/root".toList
      = some (.ok (some "@media screen\x7bbody\x7bcolor:red;\x7d\x7d".toList),
              [("/root/b.css".toList, some "body\x7bcolor:red;\x7d".toList)]) ∧
     "@media screen\x7bbody\x7bcolor:red;\x7d\x7d".toList
       ≠ "@media screen\x7bbody\x7bcolor:red\x7d\x7d".toList) ∧
    (envCCss.fsRead "/root/curl.css".toList = .error () ∧
     envCCss.fsRead "/root/c.css".toList = .ok (asciiBytes "em\x7bcolor:blue\x7d") ∧
     inlineCssF envCCss defaultConfig 3 [] (some "@import url(curl.css);".toList)
        "/root".toList "/root".toList
      = some (.ok (some "em\x7bcolor:blue\x7d".toList),
              [("/root/c.css".toList, some "em\x7bcolor:blue\x7d".toList)])) := by
  refine ⟨⟨by decide, by decide⟩, by decide, by decide, by decide⟩

/-- Decomposition of a positive `cleanRefChar` test. -/
theorem cleanRef_all (a : List Char) (ha : a.all cleanRefChar = true) :
    ∀ c ∈ a, isWs c = false ∧ c ≠ '\'' ∧ c ≠ '"' ∧ c ≠ '\x7d' ∧ c ≠ '(' ∧ c ≠ ')'
      ∧ c ≠ ';' := by
  intro c hc
  have h := List.all_eq_true.mp ha c hc
  simp only [cleanRefChar, Bool.and_eq_true, Bool.not_eq_true', bne_iff_ne] at h
  exact ⟨h.1.1.1.1.1.1, h.1.1.1.1.1.2, h.1.1.1.1.2, h.1.1.1.2, h.1.1.2, h.1.2, h.2⟩

/-- Decomposition of a positive `cleanCondChar` test. -/
theorem cleanCond_all (w : List Char) (hw : w.all cleanCondChar = true) :
    ∀ c ∈ w, (isWs c = true → c = ' ') ∧ c ≠ '\'' ∧ c ≠ '"' ∧ c ≠ '\x7d' ∧ c ≠ '(' ∧ c ≠ ')'
      ∧ c ≠ ';' := by
  intro c hc
  have h := List.all_eq_true.mp hw c hc
  simp only [cleanCondChar, Bool.and_eq_true, Bool.or_eq_true, Bool.not_eq_true',
    bne_iff_ne, beq_iff_eq] at h
  refine ⟨fun hws => ?_, h.1.1.1.1.1.2, h.1.1.1.1.2, h.1.1.1.2, h.1.1.2, h.1.2, h.2⟩
  rcases h.1.1.1.1.1.1 with hf | he
  · rw [hws] at hf; exact absurd hf (by decide)
  · exact he

/-- A list is a `isPrefixOf` of itself followed by anything. -/
theorem isPrefixOf_append_self (p t : List Char) : p.isPrefixOf (p ++ t) = true := by
  induction p with
  | nil =>
    rw [List.nil_append]
    cases t <;> rfl
  | cons c r ih =>
    simp only [List.cons_append, List.isPrefixOf, beq_self_eq_true, Bool.true_and]
    exact ih

/-- Without an occurrence of the pattern, the replace-all scan copies its
input unchanged, whatever the fuel. -/
theorem replaceSubF_id (pat repl : List Char) :
    ∀ (fuel : Nat) (l : List Char), hasSub pat l = false → replaceSubF pat repl fuel l = l := by
  intro fuel
  induction fuel with
  | zero => intro l _; rfl
  | succ fuel ih =>
    intro l h
    cases l with
    | nil => rfl
    | cons c rest =>
      simp only [hasSub, Bool.or_eq_false_iff] at h
      simp only [replaceSubF]
      rw [if_neg (fun hcon => Bool.false_ne_true (h.1 ▸ hcon.2)), ih rest h.2]

/-- Replace-all of a leading occurrence of the pattern by the empty string,
when no further occurrence follows: exactly the pattern is deleted. -/
theorem replaceSub_prefix_del (pat w : List Char) (hp : pat ≠ [])
    (hw : hasSub pat w = false) : replaceSub pat [] (pat ++ w) = w := by
  obtain ⟨p, pr, rfl⟩ := List.exists_cons_of_ne_nil hp
  show replaceSubF (p :: pr) [] (((p :: pr) ++ w).length + 1) ((p :: pr) ++ w) = w
  rw [List.cons_append]
  simp only [replaceSubF]
  rw [if_pos ⟨List.cons_ne_nil p pr, by rw [← List.cons_append]; exact isPrefixOf_append_self _ _⟩]
  have hdrop : (p :: (pr ++ w)).drop (p :: pr).length = w := by
    simp only [List.length_cons, List.drop_succ_cons]
    exact List.drop_left pr w
  rw [hdrop, List.nil_append]
  exact replaceSubF_id _ _ _ _ hw

/-- The `@import` body matcher on a clean body: no semicolon and no newline
inside means capture 2 runs exactly to the first semicolon. -/
theorem importBody_clean (tail : List Char) :
    ∀ (mid : List Char) (inWs : Bool), (∀ c ∈ mid, c ≠ ';' ∧ c ≠ '\n') →
      importBody inWs (mid ++ ';' :: tail) = some (mid, tail) := by
  intro mid
  induction mid with
  | nil =>
    intro inWs _
    rw [List.nil_append]
    simp [importBody]
  | cons c rest ih =>
    intro inWs h
    have hc := h c (List.mem_cons_self c rest)
    rw [List.cons_append]
    simp only [importBody]
    rw [if_neg hc.1, if_neg (fun hand => hc.2 hand.1)]
    rw [ih (inWs && isWs c) (fun d hd => h d (List.mem_cons_of_mem c hd))]

/-- The whitespace skipper fixes a list with a non-whitespace head. -/
theorem skipWs_cons_of_neg (c : Char) (l : List Char) (h : isWs c = false) :
    skipWs (c :: l) = c :: l := by
  simp [skipWs, h]

/-- Rust `trim` on one leading whitespace character followed by text whose
first and last characters are not whitespace. -/
theorem trimWs_clean (c : Char) (u : List Char) (hc : isWs c = true)
    (hh : ∀ d, u.head? = some d → isWs d = false)
    (hl : ∀ d, u.getLast? = some d → isWs d = false) :
    trimWs (c :: u) = u := by
  have h1 : skipWs (c :: u) = skipWs u := by simp [skipWs, hc]
  have h2 : skipWs u = u := by
    cases u with
    | nil => rfl
    | cons d t => exact skipWs_cons_of_neg d t (hh d rfl)
  have h3 : skipWs u.reverse = u.reverse := by
    cases hr : u.reverse with
    | nil => rfl
    | cons e t =>
      have he : u.getLast? = some e := by
        rw [← List.head?_reverse, hr]; rfl
      exact skipWs_cons_of_neg e t (hl e he)
  simp only [trimWs]
  rw [h1, h2, h3, List.reverse_reverse]

/-- `takeWhile` consumes a list all of whose elements pass the test. -/
theorem takeWhile_of_all (p : Char → Bool) (a : List Char) (h : ∀ c ∈ a, p c = true) :
    a.takeWhile p = a := by
  induction a with
  | nil => rfl
  | cons c rest ih =>
    rw [List.takeWhile_cons_of_pos (h c (List.mem_cons_self c rest))]
    rw [ih (fun d hd => h d (List.mem_cons_of_mem c hd))]

/-- `takeWhile` stops exactly at the first failing element. -/
theorem takeWhile_stop (p : Char → Bool) (x : Char) (t : List Char) (hx : p x = false) :
    ∀ (a : List Char), (∀ c ∈ a, p c = true) → (a ++ x :: t).takeWhile p = a := by
  intro a
  induction a with
  | nil =>
    intro _
    rw [List.nil_append, List.takeWhile_cons_of_neg (by rw [hx]; exact Bool.false_ne_true)]
  | cons c rest ih =>
    intro h
    rw [List.cons_append, List.takeWhile_cons_of_pos (h c (List.mem_cons_self c rest))]
    rw [ih (fun d hd => h d (List.mem_cons_of_mem c hd))]

/-- A member makes `contains` true. -/
theorem contains_of_mem (x : Char) (l : List Char) (hx : x ∈ l) : l.contains x = true := by
  induction l with
  | nil => cases hx
  | cons c rest ih =>
    rw [List.contains_cons]
    rcases List.mem_cons.mp hx with h | h
    · rw [h]; simp
    · rw [ih h]; simp

/-- A list none of whose elements is `x` does not contain `x`. -/
theorem contains_eq_false_of (x : Char) (l : List Char) (h : ∀ c ∈ l, c ≠ x) :
    l.contains x = false := by
  induction l with
  | nil => rfl
  | cons c rest ih =>
    have hxc : (x == c) = false :=
      beq_eq_false_iff_ne.mpr (fun he => h c (List.mem_cons_self c rest) he.symm)
    rw [List.contains_cons, hxc, ih (fun d hd => h d (List.mem_cons_of_mem c hd))]
    rfl

/-- C5, amended.  The replacement law of the `@import` pass, for an import
statement written in the clean form `@import url(<addr>) <cond>;` or
`@import url(<addr>);`: `<addr>` built from `cleanRefChar` characters,
`<cond>` from `cleanCondChar` characters not ending in a space, the string
`url` occurring nowhere after the opening parenthesis, and `<addr> ` not
occurring inside `<cond>`.  Then the whole statement is replaced by the
recursively inlined and minified imported content, wrapped as
`@media <cond>{...}` exactly when a condition is present.  Outside this
clean form the law fails, because the callback deletes every occurrence of
`url` and of `<addr> ` (js_css.rs:157-161); see the counterexample. -/
theorem c5_import_replacement
    (process : Cache → List Char → Option (Except Error (Option (List Char)) × Cache))
    (resolveImport : List Char → List Char) (fuel : Nat) (cache c2 c3 : Cache)
    (a w tail out : List Char) (out0 : Option (List Char)) (err : Option Error)
    (ha : a.all cleanRefChar = true)
    (hw0 : w ≠ []) (hw : w.all cleanCondChar = true) (hwl : w.getLast? ≠ some ' ')
    (hurl1 : hasSub "url".toList ('(' :: (a ++ ')' :: ' ' :: w)) = false)
    (hurl2 : hasSub "url".toList ('(' :: (a ++ [')'])) = false)
    (hcond : hasSub (a ++ [' ']) w = false)
    (hproc : process cache (resolveImport a) = some (.ok out0, c2))
    (htail : importPassF process resolveImport fuel c2 tail = some (out, c3, err)) :
    importPassF process resolveImport (fuel + 1) cache
        ("@import url(".toList ++ a ++ ") ".toList ++ w ++ ';' :: tail)
      = some (("@media ".toList ++ w ++ '\x7b'
            :: (((out0.map compressCss).getD []) ++ ['\x7d'])) ++ out, c3, err) ∧
    importPassF process resolveImport (fuel + 1) cache
        ("@import url(".toList ++ a ++ ')' :: ';' :: tail)
      = some (((out0.map compressCss).getD []) ++ out, c3, err) := by
  have haa := cleanRef_all a ha
  have hwa := cleanCond_all w hw
  have haNoSemi : ∀ c ∈ a, c ≠ ';' ∧ c ≠ '\n' := fun c hc =>
    ⟨(haa c hc).2.2.2.2.2.2, fun he => by
      have h0 := (haa c hc).1; rw [he] at h0; exact absurd h0 (by decide)⟩
  have hwNoSemi : ∀ c ∈ w, c ≠ ';' ∧ c ≠ '\n' := fun c hc =>
    ⟨(hwa c hc).2.2.2.2.2.2, fun he => by
      have h0 := (hwa c hc).1; rw [he] at h0; exact absurd (h0 (by decide)) (by decide)⟩
  have haNoSp : ∀ c ∈ a, c ≠ ' ' := fun c hc he => by
    have h0 := (haa c hc).1; rw [he] at h0; exact absurd h0 (by decide)
  have hfa : ∀ c ∈ a,
      decide (c ≠ '\'' ∧ c ≠ '"' ∧ c ≠ '\x7d' ∧ c ≠ '(' ∧ c ≠ ')' ∧ c ≠ ';') = true :=
    fun c hc => decide_eq_true (haa c hc).2
  have hfw : ∀ c ∈ w,
      decide (c ≠ '\'' ∧ c ≠ '"' ∧ c ≠ '\x7d' ∧ c ≠ '(' ∧ c ≠ ')' ∧ c ≠ ';') = true :=
    fun c hc => decide_eq_true (hwa c hc).2
  have hfilterA : List.filter
      (fun d => d ≠ '\'' ∧ d ≠ '"' ∧ d ≠ '\x7d' ∧ d ≠ '(' ∧ d ≠ ')' ∧ d ≠ ';')
      ('(' :: (a ++ ')' :: ' ' :: w)) = a ++ ' ' :: w := by
    rw [List.filter_cons_of_neg (by decide), List.filter_append,
      List.filter_cons_of_neg (by decide), List.filter_cons_of_pos (by decide),
      List.filter_eq_self.mpr hfa, List.filter_eq_self.mpr hfw]
  have hfilterB : List.filter
      (fun d => d ≠ '\'' ∧ d ≠ '"' ∧ d ≠ '\x7d' ∧ d ≠ '(' ∧ d ≠ ')' ∧ d ≠ ';')
      ('(' :: (a ++ [')'])) = a := by
    rw [List.filter_cons_of_neg (by decide), List.filter_append,
      List.filter_cons_of_neg (by decide), List.filter_nil, List.append_nil,
      List.filter_eq_self.mpr hfa]
  have htakeA : List.takeWhile (fun d => d ≠ ' ') (a ++ ' ' :: w) = a :=
    takeWhile_stop _ ' ' w (by decide) a (fun c hc => decide_eq_true (haNoSp c hc))
  have htakeB : List.takeWhile (fun d => d ≠ ' ') a = a :=
    takeWhile_of_all _ a (fun c hc => decide_eq_true (haNoSp c hc))
  have hcontA : (a ++ ' ' :: w).contains ' ' = true := contains_of_mem ' ' _ (by simp)
  have hcontB : a.contains ' ' = false := contains_eq_false_of ' ' a haNoSp
  have hdelUrl1 : replaceSub "url".toList [] ("url(".toList ++ (a ++ ')' :: ' ' :: w))
      = '(' :: (a ++ ')' :: ' ' :: w) := by
    rw [show ("url(".toList : List Char) ++ (a ++ ')' :: ' ' :: w)
        = "url".toList ++ ('(' :: (a ++ ')' :: ' ' :: w)) from rfl]
    exact replaceSub_prefix_del _ _ (by decide) hurl1
  have hdelUrl2 : replaceSub "url".toList [] ("url(".toList ++ (a ++ [')']))
      = '(' :: (a ++ [')']) := by
    rw [show ("url(".toList : List Char) ++ (a ++ [')'])
        = "url".toList ++ ('(' :: (a ++ [')'])) from rfl]
    exact replaceSub_prefix_del _ _ (by decide) hurl2
  have hdelCond : replaceSub (a ++ [' ']) [] (a ++ ' ' :: w) = w := by
    rw [show a ++ ' ' :: w = (a ++ [' ']) ++ w by simp]
    exact replaceSub_prefix_del _ _ (by simp) hcond
  have hpreUrlA : "url".toList.isPrefixOf ("url(".toList ++ (a ++ ')' :: ' ' :: w)) = true := by
    rw [show ("url(".toList : List Char) ++ (a ++ ')' :: ' ' :: w)
        = "url".toList ++ ('(' :: (a ++ ')' :: ' ' :: w)) from rfl]
    exact isPrefixOf_append_self _ _
  have hpreUrlB : "url".toList.isPrefixOf ("url(".toList ++ (a ++ [')'])) = true := by
    rw [show ("url(".toList : List Char) ++ (a ++ [')'])
        = "url".toList ++ ('(' :: (a ++ [')'])) from rfl]
    exact isPrefixOf_append_self _ _
  have hgA : ("url(".toList ++ (a ++ ')' :: ' ' :: w)).getLast? = w.getLast? := by
    rw [List.getLast?_append_of_ne_nil _ (by simp), List.getLast?_append_of_ne_nil _ (by simp),
      List.getLast?_cons_cons]
    obtain ⟨e, t, rfl⟩ := List.exists_cons_of_ne_nil hw0
    rw [List.getLast?_cons_cons]
  have htrimA : trimWs (' ' :: ("url(".toList ++ (a ++ ')' :: ' ' :: w)))
      = "url(".toList ++ (a ++ ')' :: ' ' :: w) := by
    refine trimWs_clean ' ' _ (by decide) ?_ ?_
    · intro d hd
      rw [show ("url(".toList ++ (a ++ ')' :: ' ' :: w)).head? = some 'u' from rfl] at hd
      injection hd with h0
      subst h0
      decide
    · intro d hd
      rw [hgA] at hd
      have hdw : d ∈ w := by
        obtain ⟨ys, hys⟩ := List.getLast?_eq_some_iff.mp hd
        rw [hys]; simp
      rcases Bool.eq_false_or_eq_true (isWs d) with hft | hft
      · exfalso
        have hsp : d = ' ' := (hwa d hdw).1 hft
        rw [hsp] at hd
        exact hwl hd
      · exact hft
  have htrimB : trimWs (' ' :: ("url(".toList ++ (a ++ [')'])))
      = "url(".toList ++ (a ++ [')']) := by
    refine trimWs_clean ' ' _ (by decide) ?_ ?_
    · intro d hd
      rw [show ("url(".toList ++ (a ++ [')'])).head? = some 'u' from rfl] at hd
      injection hd with h0
      subst h0
      decide
    · intro d hd
      rw [List.getLast?_append_of_ne_nil _ (by simp),
        List.getLast?_append_of_ne_nil _ (by simp)] at hd
      injection hd with h0
      subst h0
      decide
  refine ⟨?_, ?_⟩
  · have hmidA : ∀ c ∈ (' ' :: ("url(".toList ++ (a ++ ')' :: ' ' :: w))),
        c ≠ ';' ∧ c ≠ '\n' := by
      intro c hc
      rw [show ("url(".toList : List Char) = ['u', 'r', 'l', '('] from rfl] at hc
      simp only [List.mem_cons, List.mem_append, List.not_mem_nil, or_false] at hc
      rcases hc with rfl | (rfl | rfl | rfl | rfl) | h | rfl | rfl | h
      · decide
      · decide
      · decide
      · decide
      · decide
      · exact haNoSemi c h
      · decide
      · decide
      · exact hwNoSemi c h
    have htxt : "@import url(".toList ++ a ++ ") ".toList ++ w ++ ';' :: tail
        = '@' :: ("import".toList
            ++ ((' ' :: ("url(".toList ++ (a ++ ')' :: ' ' :: w))) ++ ';' :: tail)) := by
      rw [show ('@' :: ("import".toList
            ++ ((' ' :: ("url(".toList ++ (a ++ ')' :: ' ' :: w))) ++ ';' :: tail)))
          = "@import url(".toList ++ ((a ++ ')' :: ' ' :: w) ++ ';' :: tail) from rfl]
      rw [show (a ++ ')' :: ' ' :: w) ++ ';' :: tail
          = a ++ ')' :: ' ' :: (w ++ ';' :: tail) by simp]
      simp only [List.append_assoc]
      rfl
    rw [htxt]
    simp only [importPassF]
    rw [if_pos ⟨trivial, isPrefixOf_append_self _ _⟩]
    rw [show ("import".toList
          ++ ((' ' :: ("url(".toList ++ (a ++ ')' :: ' ' :: w))) ++ ';' :: tail)).drop 6
        = (' ' :: ("url(".toList ++ (a ++ ')' :: ' ' :: w))) ++ ';' :: tail from rfl]
    rw [importBody_clean tail _ true hmidA]
    dsimp only
    rw [htrimA]
    rw [if_pos hpreUrlA]
    rw [hdelUrl1]
    rw [hfilterA]
    rw [htakeA]
    rw [hproc]
    dsimp only
    rw [htail]
    dsimp only
    rw [if_pos hcontA]
    rw [hdelCond]
  · have hmidB : ∀ c ∈ (' ' :: ("url(".toList ++ (a ++ [')']))),
        c ≠ ';' ∧ c ≠ '\n' := by
      intro c hc
      rw [show ("url(".toList : List Char) = ['u', 'r', 'l', '('] from rfl] at hc
      simp only [List.mem_cons, List.mem_append, List.not_mem_nil, or_false] at hc
      rcases hc with rfl | (rfl | rfl | rfl | rfl) | h | rfl
      · decide
      · decide
      · decide
      · decide
      · decide
      · exact haNoSemi c h
      · decide
    have htxt : "@import url(".toList ++ a ++ ')' :: ';' :: tail
        = '@' :: ("import".toList
            ++ ((' ' :: ("url(".toList ++ (a ++ [')']))) ++ ';' :: tail)) := by
      rw [show ('@' :: ("import".toList
            ++ ((' ' :: ("url(".toList ++ (a ++ [')']))) ++ ';' :: tail)))
          = "@import url(".toList ++ ((a ++ [')']) ++ ';' :: tail) from rfl]
      rw [show (a ++ [')']) ++ ';' :: tail = a ++ ')' :: ';' :: tail by simp]
      simp only [List.append_assoc]
    rw [htxt]
    simp only [importPassF]
    rw [if_pos ⟨trivial, isPrefixOf_append_self _ _⟩]
    rw [show ("import".toList
          ++ ((' ' :: ("url(".toList ++ (a ++ [')']))) ++ ';' :: tail)).drop 6
        = (' ' :: ("url(".toList ++ (a ++ [')']))) ++ ';' :: tail from rfl]
    rw [importBody_clean tail _ true hmidB]
    dsimp only
    rw [htrimB]
    rw [if_pos hpreUrlB]
    rw [hdelUrl2]
    rw [hfilterB]
    rw [htakeB]
    rw [hproc]
    dsimp only
    rw [htail]
    dsimp only
    rw [if_neg (by rw [hcontB]; exact Bool.false_ne_true)]

/-- C5, witness: the replacement law applied to `@import url(b) s;` and
`@import url(b);` with a processor inlining every import as `x`. -/
theorem c5_import_replacement_witness :
    importPassF (fun c _ => some (.ok (some "x".toList), c)) (fun l => l) 2 []
        "@import url(b) s;".toList
      = some ("@media s\x7bx\x7d".toList, [], none) ∧
    importPassF (fun c _ => some (.ok (some "x".toList), c)) (fun l => l) 2 []
        "@import url(b);".toList
      = some ("x".toList, [], none) :=
  c5_import_replacement (fun c _ => some (.ok (some "x".toList), c)) (fun l => l) 1 [] [] []
    "b".toList "s".toList [] [] (some "x".toList) none
    (by decide) (by decide) (by decide) (by decide) (by decide) (by decide) (by decide)
    rfl rfl

/-- C2, counterexample.  The claim says a failing fetch behind an `@import`
makes the CSS-inlining call return that error.  With an environment whose
every filesystem read fails, inlining `@import url(x.css);` returns
`Ok` (with the import replaced by the empty string): the error was consumed
inside `get` (lib.rs:175-178) and never reached `inline_css`'s error slot. -/
theorem c2_counterexample :
    envAllFail.fsRead "/root/x.css".toList = .error () ∧
    inlineCssF envAllFail defaultConfig 2 [] (some "@import url(x.css);".toList)
        "/root".toList "/root".toList
      = some (.ok (some []), []) := by decide

/-- Base64 digits decode back to their value. -/
theorem b64Inv_b64Val : ∀ n, n < 64 → b64Inv (b64Val n) = n := by decide

/-- Base64 digits are never the padding character. -/
theorem b64Val_ne_pad : ∀ n, n < 64 → b64Val n ≠ '=' := by decide

/-- Decoding inverts encoding on byte lists. -/
theorem base64_roundtrip : ∀ l : List Nat, (∀ b ∈ l, b < 256) →
    base64Decode (base64Encode l) = l := by
  intro l
  induction l using base64Encode.induct with
  | case1 => intro _; rfl
  | case2 b1 =>
    intro h
    have hb1 : b1 < 256 := h b1 (by simp)
    simp only [base64Encode, base64Decode, reduceIte]
    rw [b64Inv_b64Val _ (by omega), b64Inv_b64Val _ (by omega)]
    simp only [List.cons.injEq, and_true]
    omega
  | case3 b1 b2 =>
    intro h
    have hb1 : b1 < 256 := h b1 (by simp)
    have hb2 : b2 < 256 := h b2 (by simp)
    simp only [base64Encode, base64Decode]
    rw [if_neg (b64Val_ne_pad _ (by omega))]
    simp only [reduceIte]
    rw [b64Inv_b64Val _ (by omega), b64Inv_b64Val _ (by omega), b64Inv_b64Val _ (by omega)]
    simp only [List.cons.injEq, and_true]
    constructor <;> omega
  | case4 b1 b2 b3 rest ih =>
    intro h
    have hb1 : b1 < 256 := h b1 (by simp)
    have hb2 : b2 < 256 := h b2 (by simp)
    have hb3 : b3 < 256 := h b3 (by simp)
    simp only [base64Encode, base64Decode]
    rw [if_neg (b64Val_ne_pad _ (by omega)), if_neg (b64Val_ne_pad _ (by omega))]
    rw [b64Inv_b64Val _ (by omega), b64Inv_b64Val _ (by omega), b64Inv_b64Val _ (by omega),
      b64Inv_b64Val _ (by omega)]
    rw [ih (fun b hb => h b (by simp [hb]))]
    simp only [List.cons.injEq, and_true]
    refine ⟨by omega, by omega, by omega⟩

/-- C4.  For an asset whose raw bytes were fetched successfully and fit in
`max_inline_size` (fonts enabled, so the font filter does not interfere):
with the extension in the MIME table the inlined value is exactly
`data:<mime>;base64,<base64(bytes)>` and base64-decoding the payload gives
back the bytes; with the extension absent it is the lossy UTF-8 decoding of
the bytes, with nothing prepended (lib.rs:119-150). -/
theorem c4_encoding (env : FetchEnv) (cfg : Config) (path root : List Char) (bytes : List Nat)
    (hfont : cfg.inline_fonts = true)
    (hraw : rawOf env cfg path root = .ok (some bytes))
    (hsize : bytes.length ≤ cfg.max_inline_size)
    (hbytes : ∀ b ∈ bytes, b < 256) :
    (∀ mime, env.table (extOf path) = some mime →
      loadPath env cfg path root
        = .ok (some ("data:".toList ++ mime ++ ";base64,".toList ++ base64Encode bytes)) ∧
      base64Decode (base64Encode bytes) = bytes) ∧
    (env.table (extOf path) = none →
      loadPath env cfg path root = .ok (some (utf8Lossy bytes))) := by
  have hload : loadPath env cfg path root
      = .ok (some (match env.table (extOf path) with
        | some ct => "data:".toList ++ ct ++ ";base64,".toList ++ base64Encode bytes
        | none => utf8Lossy bytes)) := by
    simp only [loadPath, hraw, hfont]
    rw [if_neg (by simp)]
    rw [if_neg (by omega)]
  constructor
  · intro mime hm
    rw [hload, hm]
    exact ⟨rfl, base64_roundtrip bytes hbytes⟩
  · intro hm
    rw [hload, hm]

/-- C4, witness: a concrete environment whose table maps `png` to
`image/png` and a three-byte asset. -/
theorem c4_encoding_witness :
    loadPath envPng defaultConfig "a.png".toList "/r".toList
      = .ok (some ("data:".toList ++ "image/png".toList ++ ";base64,".toList
          ++ base64Encode [0, 100, 255])) ∧
    base64Decode (base64Encode [0, 100, 255]) = [0, 100, 255] :=
  (c4_encoding envPng defaultConfig "a.png".toList "/r".toList [0, 100, 255] rfl (by decide)
    (by decide) (by decide)).1 "image/png".toList (by decide)

/-- C9.  A media/icon element whose resolved asset exceeds
`max_inline_size` is excluded by `load_path` (lib.rs:119-126), so
`inline_base64` (binary.rs:22-28) never calls `attributes.insert`: the
element's attribute map is returned unchanged. -/
theorem c9_oversize_attr_unchanged (env : FetchEnv) (cfg : Config) (cache : Cache)
    (attrs : Attrs) (attrName root src : List Char) (bytes : List Nat)
    (hattr : attrsFind attrs attrName = some src)
    (hdata : "data:".toList.isPrefixOf (stripQF src) = false)
    (hcache : cacheFind cache (stripQF src) = none)
    (hraw : rawOf env cfg (stripQF src) root = .ok (some bytes))
    (hbig : bytes.length > cfg.max_inline_size) :
    (processMediaElement env cfg cache attrs attrName root).1 = attrs := by
  have hload : loadPath env cfg (stripQF src) root = .ok none := by
    by_cases hf : ¬cfg.inline_fonts ∧ hasFontExt (stripQF src)
    · simp only [loadPath, if_pos hf]
    · simp only [loadPath, if_neg hf, hraw]
      rw [if_pos hbig]
  simp only [processMediaElement, hattr, getRun, hdata, Bool.false_eq_true, if_false,
    hcache, hload]

/-- C9, witness: a three-byte file against a limit of two bytes. -/
theorem c9_oversize_attr_unchanged_witness :
    (processMediaElement envPng
      { inline_fonts := true, inline_remote := true, max_inline_size := 2 }
      [] [("src".toList, "big.bin".toList)] "src".toList "/r".toList).1
      = [("src".toList, "big.bin".toList)] :=
  c9_oversize_attr_unchanged envPng
    { inline_fonts := true, inline_remote := true, max_inline_size := 2 }
    [] [("src".toList, "big.bin".toList)] "src".toList "/r".toList "big.bin".toList
    [0, 100, 255] (by decide) (by decide) rfl (by decide) (by decide)

/-- C1, amended.  Within one pass, a second `get` whose reference has the
same normalised address returns the first call's result without invoking
`load_path` again and without changing the cache, *provided* loading the
normalised address does not fail: a failed load is not cached (lib.rs:
175-178) and a later `get` would fetch again (see the counterexample). -/
theorem c1_single_fetch (env : FetchEnv) (cfg : Config) (cache : Cache)
    (root p1 p2 : List Char)
    (hk : stripQF p1 = stripQF p2)
    (hok : ∃ v, loadPath env cfg (stripQF p1) root = .ok v) :
    getRun env cfg (getRun env cfg cache p1 root).2.1 p2 root
      = ((getRun env cfg cache p1 root).1, (getRun env cfg cache p1 root).2.1, false) := by
  obtain ⟨v, hv⟩ := hok
  by_cases hd : "data:".toList.isPrefixOf (stripQF p1)
  · simp only [getRun, ← hk, if_pos hd]
  · simp only [getRun, ← hk, if_neg hd]
    cases hfind : cacheFind cache (stripQF p1) with
    | some res => simp only [hfind]
    | none =>
      simp only [hfind, hv]
      simp [cacheFind]

/-- C1, witness: a readable local file fetched through two `get` calls with
references differing only in their fragment. -/
theorem c1_single_fetch_witness :
    getRun envPlainText defaultConfig
        (getRun envPlainText defaultConfig [] "x.txt#a".toList "/r".toList).2.1
        "x.txt#b".toList "/r".toList
      = ((getRun envPlainText defaultConfig [] "x.txt#a".toList "/r".toList).1,
         (getRun envPlainText defaultConfig [] "x.txt#a".toList "/r".toList).2.1, false) :=
  c1_single_fetch envPlainText defaultConfig [] "/r".toList "x.txt#a".toList "x.txt#b".toList
    (by decide) ⟨some (utf8Lossy (asciiBytes "hi")), by decide⟩

/-- C7.  A `url(...)` reference that is not a `data:` URI and whose
resolution through the cache yields no content is rewritten as
`url('<reference>')` (js_css.rs:226-228): the reference string itself is
kept verbatim in the output CSS. -/
theorem c7_failed_url_kept (env : FetchEnv) (cfg : Config) (cache : Cache)
    (ref caps0 cssPath rootPath : List Char)
    (hdata : "data:".toList.isPrefixOf (trimWs ref) = false)
    (hfail : (getRun env cfg cache (resolveUrlRef env ref cssPath rootPath) rootPath).1 = none) :
    (urlReplacement env cfg cache ref caps0 cssPath rootPath).1
      = "url('".toList ++ ref ++ "')".toList := by
  rcases hg : getRun env cfg cache (resolveUrlRef env ref cssPath rootPath) rootPath
    with ⟨res, c2, d⟩
  rw [hg] at hfail
  simp only at hfail
  subst hfail
  simp only [urlReplacement, hdata, Bool.false_eq_true, if_false, hg]

/-- C7, witness: an unresolvable local reference inside CSS. -/
theorem c7_failed_url_kept_witness :
    (urlReplacement envAllFail defaultConfig [] "img.png".toList "url(img.png)".toList
        "/root".toList "/root".toList).1
      = "url('".toList ++ "img.png".toList ++ "')".toList :=
  c7_failed_url_kept envAllFail defaultConfig [] "img.png".toList "url(img.png)".toList
    "/root".toList "/root".toList (by decide) (by decide)

/-- C10.  `inline_html_string` unwraps the canonicalisation of its
`root_path` (lib.rs:206): a root that cannot be canonicalised aborts the
process instead of producing an `Error` value, whereas `inline_file`
(lib.rs:188-191) turns an unreadable root HTML file into an `Io` error
returned to the caller. -/
theorem c10_bad_root_panics (canon readStr : List Char → Except Unit (List Char))
    (root fp : List Char)
    (hc : canon root = .error ()) (hr : readStr fp = .error ()) :
    inlineHtmlStringStart canon root = .panicked ∧
    inlineFileStart readStr fp = .failed .io := by
  constructor
  · simp only [inlineHtmlStringStart, hc]
  · simp only [inlineFileStart, hr]

/-- C10, witness: oracles that always fail. -/
theorem c10_bad_root_panics_witness :
    inlineHtmlStringStart (fun _ => .error ()) "/missing".toList = .panicked ∧
    inlineFileStart (fun _ => .error ()) "/missing/index.html".toList = .failed .io :=
  c10_bad_root_panics (fun _ => .error ()) (fun _ => .error ())
    "/missing".toList "/missing/index.html".toList rfl rfl

/-- If the import processor never produces an error, the `@import` pass
collects no error. -/
theorem importPassF_ok
    (process : Cache → List Char → Option (Except Error (Option (List Char)) × Cache))
    (resolveImport : List Char → List Char)
    (hp : ∀ c p res c2, process c p = some (res, c2) → ∃ v, res = .ok v) :
    ∀ fuel cache text out c3 err,
      importPassF process resolveImport fuel cache text = some (out, c3, err) → err = none := by
  intro fuel
  induction fuel with
  | zero => intro cache text out c3 err h; simp [importPassF] at h
  | succ fuel ih =>
    intro cache text out c3 err h
    cases text with
    | nil =>
      simp only [importPassF, Option.some.injEq, Prod.mk.injEq] at h
      exact h.2.2.symm
    | cons c rest =>
      simp only [importPassF] at h
      split at h
      · -- an `@import` matched here
        rename_i body after hm
        split at h
        · exact Option.noConfusion h
        · rename_i res c2 hpr
          split at h
          · -- recursive processing failed: impossible, by `hp`
            rename_i e
            obtain ⟨v, hv⟩ := hp _ _ _ _ hpr
            exact Except.noConfusion hv
          · rename_i out0
            split at h
            · exact Option.noConfusion h
            · rename_i o2 c4 e2 hrec
              simp only [Option.some.injEq, Prod.mk.injEq] at h
              rw [← h.2.2]
              exact ih c2 after o2 c4 e2 hrec
      · -- no match at this position
        rename_i hm
        split at h
        · rename_i o2 c4 e2 hrec
          simp only [Option.some.injEq, Prod.mk.injEq] at h
          rw [← h.2.2]
          exact ih cache rest o2 c4 e2 hrec
        · exact Option.noConfusion h

/-- C2, amended.  Fetch errors raised while resolving `@import`/`url`
references never reach the caller of the CSS-inlining call: `get` catches
every `load_path` error and converts it to an exclusion (lib.rs:175-178),
so whenever `inline_css` completes it returns `Ok` — a failed `@import` is
replaced by the empty string and a failed `url(...)` keeps its reference.
The error-propagation slot of js_css.rs:151,193-196,233 is unreachable. -/
theorem c2_errors_swallowed (env : FetchEnv) (cfg : Config) :
    ∀ (fuel : Nat) (cache : Cache) (css : Option (List Char)) (cssPath rootPath : List Char)
      (r : Except Error (Option (List Char))) (c2 : Cache),
      inlineCssF env cfg fuel cache css cssPath rootPath = some (r, c2) → ∃ v, r = .ok v := by
  intro fuel
  induction fuel with
  | zero => intro cache css cssPath rootPath r c2 h; simp [inlineCssF] at h
  | succ fuel ih =>
    intro cache css cssPath rootPath r c2 h
    cases css with
    | none =>
      simp only [inlineCssF, Option.some.injEq, Prod.mk.injEq] at h
      exact ⟨none, h.1.symm⟩
    | some text =>
      simp only [inlineCssF] at h
      split at h
      · exact absurd h (by simp)
      · rename_i t2 cc2 errOpt him
        have herr : errOpt = none :=
          importPassF_ok _ _ (fun c p res cc hpr => ih _ _ _ _ _ _ hpr) _ _ _ _ _ _ him
        subst herr
        split at h
        · exact absurd h (by simp)
        · rename_i t3 c3 hu
          simp only [Option.some.injEq, Prod.mk.injEq] at h
          exact ⟨some (compressCss t3), h.1.symm⟩

/-- C2, witness: the concrete failing-import run returns `Ok`. -/
theorem c2_errors_swallowed_witness :
    ∃ v, (Except.ok (some ([] : List Char)) : Except Error (Option (List Char))) = .ok v :=
  c2_errors_swallowed envAllFail defaultConfig 2 [] (some "@import url(x.css);".toList)
    "/root".toList "/root".toList (.ok (some [])) [] (by decide)

/-- In fragment-deletion mode the normaliser drops everything before the
next newline. -/
theorem stripQFAux_true_eq_nil (f : List Char) (h : '\n' ∉ f) : stripQFAux true f = [] := by
  induction f with
  | nil => rfl
  | cons c rest ih =>
    have hc : ¬ c = '\n' := by
      intro hcc
      exact h (hcc ▸ List.mem_cons_self c rest)
    simp only [stripQFAux]
    rw [if_neg hc]
    exact ih (fun hm => h (List.mem_cons_of_mem _ hm))

/-- Step equation: a `#` starts fragment deletion. -/
theorem stripQFAux_hash (rest : List Char) :
    stripQFAux false ('#' :: rest) = stripQFAux true rest := by
  rw [stripQFAux.eq_def]
  dsimp only
  simp only [reduceIte]

/-- Step equation: `?#` starts fragment deletion one character earlier. -/
theorem stripQFAux_query_hash (rest : List Char) :
    stripQFAux false ('?' :: '#' :: rest) = stripQFAux true rest := by
  rw [stripQFAux.eq_def]
  dsimp only
  simp only [reduceIte]
  rw [if_neg (by decide : ¬ ('?' = '#'))]

/-- Step equation: a `?` not followed by `#` is kept. -/
theorem stripQFAux_query_other (d : Char) (rest : List Char) (hd : ¬ d = '#') :
    stripQFAux false ('?' :: d :: rest) = '?' :: stripQFAux false (d :: rest) := by
  rw [stripQFAux.eq_def]
  dsimp only
  simp only [reduceIte]
  rw [if_neg hd]
  rw [if_neg (by decide : ¬ ('?' = '#'))]

/-- Step equation: an ordinary character is kept. -/
theorem stripQFAux_other (c : Char) (rest : List Char) (hc : ¬ c = '#') (hq : ¬ c = '?') :
    stripQFAux false (c :: rest) = c :: stripQFAux false rest := by
  rw [stripQFAux.eq_def]
  dsimp only
  rw [if_neg hc, if_neg hq]

/-- The normalised key of a reference with a fragment does not depend on the
fragment's content. -/
theorem stripQFAux_append_frag : ∀ s f : List Char, '#' ∉ s → '\n' ∉ f →
    stripQFAux false (s ++ '#' :: f) = stripQFAux false (s ++ ['#']) := by
  intro s
  induction s with
  | nil =>
    intro f _ hf
    simp only [List.nil_append, stripQFAux_hash]
    rw [stripQFAux_true_eq_nil f hf]
    rfl
  | cons c s ih =>
    intro f hs hf
    have hc : ¬ c = '#' := by
      intro hcc
      exact hs (hcc ▸ List.mem_cons_self c s)
    have hs' : '#' ∉ s := fun hm => hs (List.mem_cons_of_mem _ hm)
    by_cases hq : c = '?'
    · subst hq
      cases s with
      | nil =>
        simp only [List.nil_append, List.cons_append, stripQFAux_query_hash]
        rw [stripQFAux_true_eq_nil f hf]
        rfl
      | cons d s2 =>
        have hd : ¬ d = '#' := by
          intro hdd
          exact hs' (hdd ▸ List.mem_cons_self d s2)
        simp only [List.cons_append]
        rw [stripQFAux_query_other d _ hd, stripQFAux_query_other d _ hd]
        exact congrArg _ (ih f hs' hf)
    · simp only [List.cons_append]
      rw [stripQFAux_other c _ hc hq, stripQFAux_other c _ hc hq]
      exact congrArg _ (ih f hs' hf)

/-- C6, amended.  Only the fragment is stripped before the reference is
used as a cache key: the regex `\??#.*` (lib.rs:160) deletes the `#`, an
immediately preceding `?`, and everything after the `#`, so two references
differing only in their fragment map to the same normalised cache key — but
a query string with no fragment is kept (see the counterexample). -/
theorem c6_fragment_stripped (s f1 f2 : List Char) (hs : '#' ∉ s)
    (h1 : '\n' ∉ f1) (h2 : '\n' ∉ f2) :
    stripQF (s ++ '#' :: f1) = stripQF (s ++ '#' :: f2) := by
  unfold stripQF
  rw [stripQFAux_append_frag s f1 hs h1, stripQFAux_append_frag s f2 hs h2]

/-- C6, witness: `a.css#x` and `a.css#y` share a cache key. -/
theorem c6_fragment_stripped_witness :
    stripQF ("a.css".toList ++ '#' :: "x".toList)
      = stripQF ("a.css".toList ++ '#' :: "y".toList) :=
  c6_fragment_stripped "a.css".toList "x".toList "y".toList (by decide) (by decide) (by decide)

/-!
Analysis of `compress_css`: the seven passes and the invariants they
establish, leading to idempotence on comment-free input (claim C8).
-/

/-- Induction with the two step shapes of `replacePair`. -/
theorem twoStepInduction (motive : List Char → Prop)
    (h0 : motive []) (h1 : ∀ a, motive [a])
    (h2 : ∀ a b rest, motive rest → motive (b :: rest) → motive (a :: b :: rest)) :
    ∀ l, motive l := by
  have H : ∀ n l, List.length l ≤ n → motive l := by
    intro n
    induction n with
    | zero =>
      intro l hl
      cases l with
      | nil => exact h0
      | cons a t => simp at hl
    | succ n ih =>
      intro l hl
      cases l with
      | nil => exact h0
      | cons a t =>
        cases t with
        | nil => exact h1 a
        | cons b rest =>
          refine h2 a b rest (ih rest ?_) (ih (b :: rest) ?_)
          · simp only [List.length_cons] at hl; omega
          · simp only [List.length_cons] at hl ⊢; omega
  exact fun l => H l.length l le_rfl

theorem pairsOK_cons2 (g : Char → Char → Bool) (a b : Char) (l : List Char) :
    pairsOK g (a :: b :: l) = (g a b && pairsOK g (b :: l)) := rfl

theorem pairsOK_cons (g : Char → Char → Bool) (a : Char) (l : List Char)
    (h : pairsOK g l = true) (hh : ∀ b rest, l = b :: rest → g a b = true) :
    pairsOK g (a :: l) = true := by
  cases l with
  | nil => rfl
  | cons b rest =>
    rw [pairsOK_cons2, hh b rest rfl, h]
    rfl

theorem pairsOK_tail (g : Char → Char → Bool) (a : Char) (l : List Char)
    (h : pairsOK g (a :: l) = true) : pairsOK g l = true := by
  cases l with
  | nil => rfl
  | cons b rest =>
    rw [pairsOK_cons2] at h
    simp only [Bool.and_eq_true] at h
    exact h.2

theorem pairsOK_pair (g : Char → Char → Bool) (a b : Char) (l : List Char)
    (h : pairsOK g (a :: b :: l) = true) : g a b = true := by
  rw [pairsOK_cons2] at h
  simp only [Bool.and_eq_true] at h
  exact h.1

theorem wsOnly_cons (c : Char) (l : List Char) :
    wsOnlySpace (c :: l) = ((!isWs c || c == ' ') && wsOnlySpace l) := rfl

theorem wsOnly_tail (c : Char) (l : List Char) (h : wsOnlySpace (c :: l) = true) :
    wsOnlySpace l = true := by
  rw [wsOnly_cons] at h
  simp only [Bool.and_eq_true] at h
  exact h.2

theorem wsOnly_head (c : Char) (l : List Char) (h : wsOnlySpace (c :: l) = true) :
    isWs c = true → c = ' ' := by
  rw [wsOnly_cons] at h
  intro hw
  simp only [Bool.and_eq_true] at h
  simpa [hw] using h.1

/-- Step equations for the whitespace-collapsing pass. -/
theorem cwAux_nil (b : Bool) : cwAux b [] = [] := rfl

theorem cwAux_cons (b : Bool) (c : Char) (rest : List Char) :
    cwAux b (c :: rest)
      = if isWs c then (if b then cwAux true rest else ' ' :: cwAux true rest)
        else c :: cwAux false rest := rfl

/-- Step equations for the colon-whitespace pass. -/
theorem scAux_nil (b : Bool) : scAux b [] = [] := rfl

theorem scAux_cons (b : Bool) (c : Char) (rest : List Char) :
    scAux b (c :: rest)
      = if (b && isWs c) = true then scAux true rest
        else if c = ':' then ':' :: scAux true rest
        else c :: scAux false rest := rfl

/-- Step equations for the comment-fragment pass. -/
theorem cfAux_norm_nil : cfAux .norm [] = [] := rfl

theorem cfAux_norm_cons (c : Char) (rest : List Char) :
    cfAux .norm (c :: rest)
      = if c = '/' then cfAux .slash rest else c :: cfAux .norm rest := rfl

theorem cfAux_slash_nil : cfAux .slash [] = ['/'] := rfl

theorem cfAux_slash_cons (c : Char) (rest : List Char) :
    cfAux .slash (c :: rest)
      = if c = '*' then cfAux (.inC []) rest
        else if c = '/' then '/' :: cfAux .slash rest
        else '/' :: c :: cfAux .norm rest := rfl

theorem bool_eq_false (b : Bool) (h : ¬ b = true) : b = false := by
  cases b
  · rfl
  · exact absurd rfl h

/-- Transfer of a pair constraint to the head of the tail. -/
theorem pairsOK_head_of (g : Char → Char → Bool) (c : Char) (rest : List Char)
    (hp : pairsOK g (c :: rest) = true) (b : Char) (hb : rest.head? = some b) :
    g c b = true := by
  cases rest with
  | nil => cases hb
  | cons d r2 =>
    simp only [List.head?_cons, Option.some.injEq] at hb
    subst hb
    exact pairsOK_pair g c d r2 hp

/-- After a replaced whitespace run, the next emitted character is not
whitespace. -/
theorem cwAux_true_head (l : List Char) :
    ∀ h, (cwAux true l).head? = some h → isWs h = false := by
  induction l with
  | nil => intro h hh; cases hh
  | cons c rest ih =>
    intro h hh
    rw [cwAux_cons] at hh
    by_cases hw : isWs c = true
    · rw [if_pos hw] at hh
      simp only [reduceIte] at hh
      exact ih h hh
    · rw [if_neg hw] at hh
      simp only [List.head?_cons, Option.some.injEq] at hh
      subst hh
      exact bool_eq_false _ hw

/-- Head of the whitespace-collapsing pass in normal mode. -/
theorem cwAux_false_head (d : Char) (r : List Char) :
    (cwAux false (d :: r)).head? = some (if isWs d then ' ' else d) := by
  rw [cwAux_cons]
  by_cases hw : isWs d = true
  · simp [hw]
  · simp [bool_eq_false _ hw]

/-- Pass 1 establishes: whitespace is only single spaces, and no `/*` is
created if none was present. -/
theorem stage1 : ∀ l, noSlashStar l = true →
    (wsOnlySpace (cwAux false l) = true ∧ noWsWs (cwAux false l) = true
      ∧ noSlashStar (cwAux false l) = true) ∧
    (wsOnlySpace (cwAux true l) = true ∧ noWsWs (cwAux true l) = true
      ∧ noSlashStar (cwAux true l) = true) := by
  intro l
  induction l with
  | nil => intro _; exact ⟨⟨rfl, rfl, rfl⟩, ⟨rfl, rfl, rfl⟩⟩
  | cons c rest ih =>
    intro hss
    obtain ⟨⟨wF, nF, sF⟩, ⟨wT, nT, sT⟩⟩ := ih (pairsOK_tail _ _ _ hss)
    by_cases hw : isWs c = true
    · have houtF : cwAux false (c :: rest) = ' ' :: cwAux true rest := by
        rw [cwAux_cons, if_pos hw, if_neg (by decide : ¬ (false = true))]
      have houtT : cwAux true (c :: rest) = cwAux true rest := by
        rw [cwAux_cons, if_pos hw, if_pos rfl]
      refine ⟨?_, ?_⟩
      · rw [houtF]
        refine ⟨?_, ?_, ?_⟩
        · rw [wsOnly_cons, wT]
          decide
        · refine pairsOK_cons _ _ _ nT ?_
          intro b r hbr
          have hb := cwAux_true_head rest b (by rw [hbr]; rfl)
          simp [hb]
        · refine pairsOK_cons _ _ _ sT ?_
          intro b r hbr
          have h0 : (' ' == '/') = false := by decide
          simp [h0]
      · rw [houtT]
        exact ⟨wT, nT, sT⟩
    · have hwf : isWs c = false := bool_eq_false _ hw
      have houtF : cwAux false (c :: rest) = c :: cwAux false rest := by
        rw [cwAux_cons, if_neg hw]
      have houtT : cwAux true (c :: rest) = c :: cwAux false rest := by
        rw [cwAux_cons, if_neg hw]
      have main : wsOnlySpace (c :: cwAux false rest) = true
          ∧ noWsWs (c :: cwAux false rest) = true
          ∧ noSlashStar (c :: cwAux false rest) = true := by
        refine ⟨?_, ?_, ?_⟩
        · rw [wsOnly_cons, wF, hwf]
          simp
        · refine pairsOK_cons _ _ _ nF ?_
          intro b r hbr
          simp [hwf]
        · refine pairsOK_cons _ _ _ sF ?_
          intro b r hbr
          by_cases hc : (c == '/') = true
          · cases rest with
            | nil => cases hbr
            | cons d r2 =>
              have hhead : (cwAux false (d :: r2)).head? = some b := by rw [hbr]; rfl
              rw [cwAux_false_head] at hhead
              simp only [Option.some.injEq] at hhead
              by_cases hwd : isWs d = true
              · rw [if_pos hwd] at hhead
                subst hhead
                have h0 : (' ' == '*') = false := by decide
                simp [h0]
              · rw [if_neg hwd] at hhead
                subst hhead
                exact pairsOK_pair _ c d r2 hss
          · simp [bool_eq_false _ hc]
      exact ⟨houtF ▸ main, houtT ▸ main⟩

/-- Head of the colon-whitespace pass in normal mode. -/
theorem scAux_false_head (l : List Char) : (scAux false l).head? = l.head? := by
  cases l with
  | nil => rfl
  | cons c rest =>
    rw [scAux_cons, if_neg (by simp : ¬ ((false && isWs c) = true))]
    by_cases hc : c = ':'
    · subst hc; simp
    · rw [if_neg hc]; rfl

/-- After a deleted whitespace run, the next emitted character is not
whitespace. -/
theorem scAux_true_head (l : List Char) :
    ∀ h, (scAux true l).head? = some h → isWs h = false := by
  induction l with
  | nil => intro h hh; cases hh
  | cons c rest ih =>
    intro h hh
    rw [scAux_cons] at hh
    by_cases hw : isWs c = true
    · rw [if_pos (by simp [hw] : (true && isWs c) = true)] at hh
      exact ih h hh
    · rw [if_neg (by simp [bool_eq_false _ hw] : ¬ ((true && isWs c) = true))] at hh
      by_cases hc : c = ':'
      · rw [if_pos hc] at hh
        simp only [List.head?_cons, Option.some.injEq] at hh
        subst hh
        decide
      · rw [if_neg hc] at hh
        simp only [List.head?_cons, Option.some.injEq] at hh
        subst hh
        exact bool_eq_false _ hw

/-- On a non-whitespace head the two modes of the colon-whitespace pass
agree. -/
theorem scAux_true_eq_false (c : Char) (rest : List Char) (hw : isWs c = false) :
    scAux true (c :: rest) = scAux false (c :: rest) := by
  rw [scAux_cons, scAux_cons, hw]
  simp

/-- Pass 2 establishes: no whitespace after a colon; single-space whitespace
and the absence of `/*` survive. -/
theorem stage2 : ∀ l, wsOnlySpace l = true → noWsWs l = true → noSlashStar l = true →
    (wsOnlySpace (scAux false l) = true ∧ noWsWs (scAux false l) = true
      ∧ noSlashStar (scAux false l) = true ∧ noColonWs (scAux false l) = true) ∧
    (wsOnlySpace (scAux true l) = true ∧ noWsWs (scAux true l) = true
      ∧ noSlashStar (scAux true l) = true ∧ noColonWs (scAux true l) = true) := by
  intro l
  induction l with
  | nil => intro _ _ _; exact ⟨⟨rfl, rfl, rfl, rfl⟩, ⟨rfl, rfl, rfl, rfl⟩⟩
  | cons c rest ih =>
    intro hws hww hss
    obtain ⟨⟨wF, nF, sF, cF⟩, ⟨wT, nT, sT, cT⟩⟩ :=
      ih (wsOnly_tail _ _ hws) (pairsOK_tail _ _ _ hww) (pairsOK_tail _ _ _ hss)
    have transfer : ∀ b r, scAux false rest = b :: r → rest.head? = some b := by
      intro b r hbr
      rw [← scAux_false_head, hbr]
      rfl
    by_cases hw : isWs c = true
    · -- `c` is whitespace, hence not a colon; normal mode keeps it
      have hc : ¬ c = ':' := by
        intro hcc
        rw [hcc] at hw
        cases hw
      have houtF : scAux false (c :: rest) = c :: scAux false rest := by
        rw [scAux_cons, if_neg (by simp : ¬ ((false && isWs c) = true)), if_neg hc]
      have houtT : scAux true (c :: rest) = scAux true rest := by
        rw [scAux_cons, if_pos (by simp [hw] : (true && isWs c) = true)]
      refine ⟨?_, ?_⟩
      · rw [houtF]
        refine ⟨?_, ?_, ?_, ?_⟩
        · rw [wsOnly_cons, wF]
          rw [wsOnly_cons] at hws
          simp only [Bool.and_eq_true] at hws
          simp [hws.1]
        · refine pairsOK_cons _ _ _ nF ?_
          intro b r hbr
          exact pairsOK_head_of _ c rest hww b (transfer b r hbr)
        · refine pairsOK_cons _ _ _ sF ?_
          intro b r hbr
          exact pairsOK_head_of _ c rest hss b (transfer b r hbr)
        · refine pairsOK_cons _ _ _ cF ?_
          intro b r hbr
          simp [hc]
      · rw [houtT]
        exact ⟨wT, nT, sT, cT⟩
    · have hwf : isWs c = false := bool_eq_false _ hw
      have mainF : wsOnlySpace (scAux false (c :: rest)) = true
          ∧ noWsWs (scAux false (c :: rest)) = true
          ∧ noSlashStar (scAux false (c :: rest)) = true
          ∧ noColonWs (scAux false (c :: rest)) = true := by
        by_cases hc : c = ':'
        · subst hc
          have hout : scAux false (':' :: rest) = ':' :: scAux true rest := by
            rw [scAux_cons, if_neg (by simp : ¬ ((false && isWs ':') = true)), if_pos rfl]
          rw [hout]
          refine ⟨?_, ?_, ?_, ?_⟩
          · rw [wsOnly_cons, wT]
            decide
          · refine pairsOK_cons _ _ _ nT ?_
            intro b r hbr
            have h0 : isWs ':' = false := by decide
            simp [h0]
          · refine pairsOK_cons _ _ _ sT ?_
            intro b r hbr
            have h0 : (':' == '/') = false := by decide
            simp [h0]
          · refine pairsOK_cons _ _ _ cT ?_
            intro b r hbr
            have hb := scAux_true_head rest b (by rw [hbr]; rfl)
            simp [hb]
        · have hout : scAux false (c :: rest) = c :: scAux false rest := by
            rw [scAux_cons, if_neg (by simp : ¬ ((false && isWs c) = true)), if_neg hc]
          rw [hout]
          refine ⟨?_, ?_, ?_, ?_⟩
          · rw [wsOnly_cons, wF, hwf]
            simp
          · refine pairsOK_cons _ _ _ nF ?_
            intro b r hbr
            exact pairsOK_head_of _ c rest hww b (transfer b r hbr)
          · refine pairsOK_cons _ _ _ sF ?_
            intro b r hbr
            exact pairsOK_head_of _ c rest hss b (transfer b r hbr)
          · refine pairsOK_cons _ _ _ cF ?_
            intro b r hbr
            simp [hc]
      refine ⟨mainF, ?_⟩
      rw [scAux_true_eq_false c rest hwf]
      exact mainF

/-- Pass 3 is the identity on text without `/*` (the companion conjunct
covers the scanner's `slash` state when the next character is not `*`). -/
theorem stage3 : ∀ l, noSlashStar l = true →
    cfAux .norm l = l ∧ ((∀ h, l.head? = some h → ¬ h = '*') → cfAux .slash l = '/' :: l) := by
  intro l
  induction l with
  | nil => exact fun _ => ⟨rfl, fun _ => rfl⟩
  | cons c rest ih =>
    intro hss
    obtain ⟨ihN, ihS⟩ := ih (pairsOK_tail _ _ _ hss)
    have hstar : c = '/' → ∀ h, rest.head? = some h → ¬ h = '*' := by
      intro hc h hh heq
      have g := pairsOK_head_of _ c rest hss h hh
      rw [hc, heq] at g
      cases g
    constructor
    · rw [cfAux_norm_cons]
      by_cases hc : c = '/'
      · rw [if_pos hc, ihS (hstar hc), hc]
      · rw [if_neg hc, ihN]
    · intro hh
      rw [cfAux_slash_cons]
      have hcstar : ¬ c = '*' := hh c rfl
      rw [if_neg hcstar]
      by_cases hc : c = '/'
      · rw [if_pos hc, ihS (hstar hc), hc]
      · rw [if_neg hc, ihN]

/-- Pass 1 is the identity on text whose whitespace is isolated single
spaces. -/
theorem collapseWs_id : ∀ l, wsOnlySpace l = true → noWsWs l = true →
    cwAux false l = l ∧ ((∀ h, l.head? = some h → isWs h = false) → cwAux true l = l) := by
  intro l
  induction l with
  | nil => intro _ _; exact ⟨rfl, fun _ => rfl⟩
  | cons c rest ih =>
    intro hws hww
    obtain ⟨ihF, ihT⟩ := ih (wsOnly_tail _ _ hws) (pairsOK_tail _ _ _ hww)
    have hF : cwAux false (c :: rest) = c :: rest := by
      rw [cwAux_cons]
      by_cases hw : isWs c = true
      · rw [if_pos hw, if_neg (by decide : ¬ (false = true))]
        have hc : c = ' ' := wsOnly_head _ _ hws hw
        have hrest : ∀ h, rest.head? = some h → isWs h = false := by
          intro h hh
          have g := pairsOK_head_of _ c rest hww h hh
          rw [hw] at g
          simpa using g
        rw [ihT hrest, hc]
      · rw [if_neg hw, ihF]
    refine ⟨hF, ?_⟩
    intro hh
    rw [cwAux_cons, if_neg ?hcnw, ihF]
    case hcnw =>
      rw [hh c rfl]
      decide

/-- Pass 2 is the identity on text with no whitespace after a colon. -/
theorem stripColonWs_id : ∀ l, noColonWs l = true →
    scAux false l = l ∧ ((∀ h, l.head? = some h → isWs h = false) → scAux true l = l) := by
  intro l
  induction l with
  | nil => intro _; exact ⟨rfl, fun _ => rfl⟩
  | cons c rest ih =>
    intro hcw
    obtain ⟨ihF, ihT⟩ := ih (pairsOK_tail _ _ _ hcw)
    have hF : scAux false (c :: rest) = c :: rest := by
      rw [scAux_cons, if_neg (by simp : ¬ ((false && isWs c) = true))]
      by_cases hc : c = ':'
      · subst hc
        have hrest : ∀ h, rest.head? = some h → isWs h = false := by
          intro h hh
          have g := pairsOK_head_of _ ':' rest hcw h hh
          simpa using g
        rw [if_pos rfl, ihT hrest]
      · rw [if_neg hc, ihF]
    refine ⟨hF, ?_⟩
    intro hh
    rw [scAux_true_eq_false c rest (hh c rfl), hF]

theorem beq_false_of_ne {a b : Char} (h : ¬ a = b) : (a == b) = false := by
  cases hq : a == b
  · rfl
  · exact absurd (eq_of_beq hq) h

theorem not_space_of_not_ws {c : Char} (h : isWs c = false) : (c == ' ') = false := by
  apply beq_false_of_ne
  intro hc
  rw [hc] at h
  cases h

theorem replacePair_nil (x y k : Char) : replacePair x y k [] = [] := rfl

theorem replacePair_one (x y k a : Char) : replacePair x y k [a] = [a] := rfl

theorem replacePair_cons2 (x y k a b : Char) (rest : List Char) :
    replacePair x y k (a :: b :: rest)
      = if a = x ∧ b = y then k :: replacePair x y k rest
        else a :: replacePair x y k (b :: rest) := rfl

/-- Passes 4-6 are the identity when the deleted pair never occurs. -/
theorem replacePair_id (x y k : Char) :
    ∀ l, pairsOK (fun a b => !(a == x && b == y)) l = true → replacePair x y k l = l := by
  have main : ∀ l, pairsOK (fun a b => !(a == x && b == y)) l = true →
      replacePair x y k l = l := by
    refine twoStepInduction _ (fun _ => rfl) (fun a _ => rfl) ?_
    intro a b rest ih1 ih2 hp
    have g := pairsOK_pair _ a b rest hp
    rw [replacePair_cons2, if_neg ?hn, ih2 (pairsOK_tail _ _ _ hp)]
    case hn =>
      rintro ⟨ha, hb⟩
      subst ha
      subst hb
      simp at g
  exact main

/-- When the replacement equals the kept left character, the head is
unchanged. -/
theorem replacePair_keepLeft_head (x y : Char) :
    ∀ l, (replacePair x y x l).head? = l.head? := by
  intro l
  cases l with
  | nil => rfl
  | cons a t =>
    cases t with
    | nil => rfl
    | cons b rest =>
      rw [replacePair_cons2]
      by_cases hab : a = x ∧ b = y
      · rw [if_pos hab]
        simp [hab.1]
      · rw [if_neg hab]
        rfl

/-- Head description for the space-brace pass, whose replacement keeps the
right character. -/
theorem replacePair_spBrace_head :
    ∀ l, (replacePair ' ' '\x7b' '\x7b' l).head? = l.head?
      ∨ (∃ rest, l = ' ' :: '\x7b' :: rest
          ∧ (replacePair ' ' '\x7b' '\x7b' l).head? = some '\x7b') := by
  intro l
  cases l with
  | nil => exact Or.inl rfl
  | cons a t =>
    cases t with
    | nil => exact Or.inl rfl
    | cons b rest =>
      by_cases hab : a = ' ' ∧ b = '\x7b'
      · refine Or.inr ⟨rest, ?_, ?_⟩
        · rw [hab.1, hab.2]
        · rw [replacePair_cons2, if_pos hab]
          rfl
      · rw [replacePair_cons2, if_neg hab]
        exact Or.inl rfl

/-- Pass 4 establishes: no space after a closing brace; the earlier
invariants survive. -/
theorem stage4 : ∀ l, wsOnlySpace l = true → noWsWs l = true → noColonWs l = true →
    noSlashStar l = true →
    wsOnlySpace (replacePair '\x7d' ' ' '\x7d' l) = true
    ∧ noWsWs (replacePair '\x7d' ' ' '\x7d' l) = true
    ∧ noColonWs (replacePair '\x7d' ' ' '\x7d' l) = true
    ∧ noSlashStar (replacePair '\x7d' ' ' '\x7d' l) = true
    ∧ noBraceSp (replacePair '\x7d' ' ' '\x7d' l) = true := by
  refine twoStepInduction _ ?_ ?_ ?_
  · intro _ _ _ _
    exact ⟨rfl, rfl, rfl, rfl, rfl⟩
  · intro a hws _ _ _
    exact ⟨hws, rfl, rfl, rfl, rfl⟩
  · intro a b rest ih1 ih2 hws hww hcw hss
    by_cases hab : a = '\x7d' ∧ b = ' '
    · obtain ⟨ha, hb⟩ := hab
      subst ha
      subst hb
      obtain ⟨w4, n4, c4, s4, b4⟩ :=
        ih1 (wsOnly_tail _ _ (wsOnly_tail _ _ hws))
          (pairsOK_tail _ _ _ (pairsOK_tail _ _ _ hww))
          (pairsOK_tail _ _ _ (pairsOK_tail _ _ _ hcw))
          (pairsOK_tail _ _ _ (pairsOK_tail _ _ _ hss))
      have hout : replacePair '\x7d' ' ' '\x7d' ('\x7d' :: ' ' :: rest)
          = '\x7d' :: replacePair '\x7d' ' ' '\x7d' rest := by
        rw [replacePair_cons2, if_pos ⟨rfl, rfl⟩]
      rw [hout]
      have hhead : ∀ hd r2, replacePair '\x7d' ' ' '\x7d' rest = hd :: r2 →
          rest.head? = some hd := by
        intro hd r2 hbr
        rw [← replacePair_keepLeft_head '\x7d' ' ' rest, hbr]
        rfl
      have hnws : ∀ hd, rest.head? = some hd → isWs hd = false := by
        intro hd hh
        have g := pairsOK_head_of _ ' ' rest (pairsOK_tail _ _ _ hww) hd hh
        have h0 : isWs ' ' = true := by decide
        simpa [h0] using g
      refine ⟨?_, ?_, ?_, ?_, ?_⟩
      · rw [wsOnly_cons, w4]
        decide
      · refine pairsOK_cons _ _ _ n4 ?_
        intro hd r2 hbr
        have h0 : isWs '\x7d' = false := by decide
        simp [h0]
      · refine pairsOK_cons _ _ _ c4 ?_
        intro hd r2 hbr
        have h0 : ('\x7d' == ':') = false := by decide
        simp [h0]
      · refine pairsOK_cons _ _ _ s4 ?_
        intro hd r2 hbr
        have h0 : ('\x7d' == '/') = false := by decide
        simp [h0]
      · refine pairsOK_cons _ _ _ b4 ?_
        intro hd r2 hbr
        have hsp := not_space_of_not_ws (hnws hd (hhead hd r2 hbr))
        simp [hsp]
    · have hout : replacePair '\x7d' ' ' '\x7d' (a :: b :: rest)
          = a :: replacePair '\x7d' ' ' '\x7d' (b :: rest) := by
        rw [replacePair_cons2, if_neg hab]
      rw [hout]
      obtain ⟨w4, n4, c4, s4, b4⟩ :=
        ih2 (wsOnly_tail _ _ hws) (pairsOK_tail _ _ _ hww)
          (pairsOK_tail _ _ _ hcw) (pairsOK_tail _ _ _ hss)
      have hheadb : ∀ hd r2, replacePair '\x7d' ' ' '\x7d' (b :: rest) = hd :: r2 →
          hd = b := by
        intro hd r2 hbr
        have hh := replacePair_keepLeft_head '\x7d' ' ' (b :: rest)
        rw [hbr] at hh
        simp only [List.head?_cons, Option.some.injEq] at hh
        exact hh
      refine ⟨?_, ?_, ?_, ?_, ?_⟩
      · rw [wsOnly_cons, w4]
        rw [wsOnly_cons] at hws
        simp only [Bool.and_eq_true] at hws
        simp [hws.1]
      · refine pairsOK_cons _ _ _ n4 ?_
        intro hd r2 hbr
        rw [hheadb hd r2 hbr]
        exact pairsOK_pair _ a b _ hww
      · refine pairsOK_cons _ _ _ c4 ?_
        intro hd r2 hbr
        rw [hheadb hd r2 hbr]
        exact pairsOK_pair _ a b _ hcw
      · refine pairsOK_cons _ _ _ s4 ?_
        intro hd r2 hbr
        rw [hheadb hd r2 hbr]
        exact pairsOK_pair _ a b _ hss
      · refine pairsOK_cons _ _ _ b4 ?_
        intro hd r2 hbr
        rw [hheadb hd r2 hbr]
        by_cases haq : a = '\x7d'
        · have hbq : (b == ' ') = false := beq_false_of_ne (fun hbb => hab ⟨haq, hbb⟩)
          simp [hbq]
        · simp [beq_false_of_ne haq]

/-- Pass 5 establishes: no space before an opening brace; the earlier
invariants survive. -/
theorem stage5 : ∀ l, wsOnlySpace l = true → noWsWs l = true → noColonWs l = true →
    noSlashStar l = true → noBraceSp l = true →
    wsOnlySpace (replacePair ' ' '\x7b' '\x7b' l) = true
    ∧ noWsWs (replacePair ' ' '\x7b' '\x7b' l) = true
    ∧ noColonWs (replacePair ' ' '\x7b' '\x7b' l) = true
    ∧ noSlashStar (replacePair ' ' '\x7b' '\x7b' l) = true
    ∧ noBraceSp (replacePair ' ' '\x7b' '\x7b' l) = true
    ∧ noSpBrace (replacePair ' ' '\x7b' '\x7b' l) = true := by
  refine twoStepInduction _ ?_ ?_ ?_
  · intro _ _ _ _ _
    exact ⟨rfl, rfl, rfl, rfl, rfl, rfl⟩
  · intro a hws _ _ _ _
    exact ⟨hws, rfl, rfl, rfl, rfl, rfl⟩
  · intro a b rest ih1 ih2 hws hww hcw hss hbs
    by_cases hab : a = ' ' ∧ b = '\x7b'
    · obtain ⟨ha, hb⟩ := hab
      subst ha
      subst hb
      obtain ⟨w5, n5, c5, s5, b5, p5⟩ :=
        ih1 (wsOnly_tail _ _ (wsOnly_tail _ _ hws))
          (pairsOK_tail _ _ _ (pairsOK_tail _ _ _ hww))
          (pairsOK_tail _ _ _ (pairsOK_tail _ _ _ hcw))
          (pairsOK_tail _ _ _ (pairsOK_tail _ _ _ hss))
          (pairsOK_tail _ _ _ (pairsOK_tail _ _ _ hbs))
      have hout : replacePair ' ' '\x7b' '\x7b' (' ' :: '\x7b' :: rest)
          = '\x7b' :: replacePair ' ' '\x7b' '\x7b' rest := by
        rw [replacePair_cons2, if_pos ⟨rfl, rfl⟩]
      rw [hout]
      refine ⟨?_, ?_, ?_, ?_, ?_, ?_⟩
      · rw [wsOnly_cons, w5]
        decide
      · refine pairsOK_cons _ _ _ n5 ?_
        intro hd r2 hbr
        have h0 : isWs '\x7b' = false := by decide
        simp [h0]
      · refine pairsOK_cons _ _ _ c5 ?_
        intro hd r2 hbr
        have h0 : ('\x7b' == ':') = false := by decide
        simp [h0]
      · refine pairsOK_cons _ _ _ s5 ?_
        intro hd r2 hbr
        have h0 : ('\x7b' == '/') = false := by decide
        simp [h0]
      · refine pairsOK_cons _ _ _ b5 ?_
        intro hd r2 hbr
        have h0 : ('\x7b' == '\x7d') = false := by decide
        simp [h0]
      · refine pairsOK_cons _ _ _ p5 ?_
        intro hd r2 hbr
        have h0 : ('\x7b' == ' ') = false := by decide
        simp [h0]
    · have hout : replacePair ' ' '\x7b' '\x7b' (a :: b :: rest)
          = a :: replacePair ' ' '\x7b' '\x7b' (b :: rest) := by
        rw [replacePair_cons2, if_neg hab]
      rw [hout]
      obtain ⟨w5, n5, c5, s5, b5, p5⟩ :=
        ih2 (wsOnly_tail _ _ hws) (pairsOK_tail _ _ _ hww)
          (pairsOK_tail _ _ _ hcw) (pairsOK_tail _ _ _ hss) (pairsOK_tail _ _ _ hbs)
      have hhead : ∀ hd r2, replacePair ' ' '\x7b' '\x7b' (b :: rest) = hd :: r2 →
          hd = b ∨ (hd = '\x7b' ∧ b = ' ') := by
        intro hd r2 hbr
        rcases replacePair_spBrace_head (b :: rest) with hh | ⟨rest2, heq, hh⟩
        · rw [hbr] at hh
          simp only [List.head?_cons, Option.some.injEq] at hh
          exact Or.inl hh
        · rw [hbr] at hh
          simp only [List.head?_cons, Option.some.injEq] at hh
          have hb : b = ' ' := by
            have := congrArg List.head? heq
            simp only [List.head?_cons, Option.some.injEq] at this
            exact this
          exact Or.inr ⟨hh, hb⟩
      refine ⟨?_, ?_, ?_, ?_, ?_, ?_⟩
      · rw [wsOnly_cons, w5]
        rw [wsOnly_cons] at hws
        simp only [Bool.and_eq_true] at hws
        simp [hws.1]
      · refine pairsOK_cons _ _ _ n5 ?_
        intro hd r2 hbr
        rcases hhead hd r2 hbr with hh | ⟨hh, hb⟩
        · rw [hh]
          exact pairsOK_pair _ a b _ hww
        · rw [hh]
          have h0 : isWs '\x7b' = false := by decide
          simp [h0]
      · refine pairsOK_cons _ _ _ c5 ?_
        intro hd r2 hbr
        rcases hhead hd r2 hbr with hh | ⟨hh, hb⟩
        · rw [hh]
          exact pairsOK_pair _ a b _ hcw
        · rw [hh]
          have h0 : isWs '\x7b' = false := by decide
          simp [h0]
      · refine pairsOK_cons _ _ _ s5 ?_
        intro hd r2 hbr
        rcases hhead hd r2 hbr with hh | ⟨hh, hb⟩
        · rw [hh]
          exact pairsOK_pair _ a b _ hss
        · rw [hh]
          have h0 : ('\x7b' == '*') = false := by decide
          simp [h0]
      · refine pairsOK_cons _ _ _ b5 ?_
        intro hd r2 hbr
        rcases hhead hd r2 hbr with hh | ⟨hh, hb⟩
        · rw [hh]
          exact pairsOK_pair _ a b _ hbs
        · rw [hh]
          have h0 : ('\x7b' == ' ') = false := by decide
          simp [h0]
      · refine pairsOK_cons _ _ _ p5 ?_
        intro hd r2 hbr
        rcases hhead hd r2 hbr with hh | ⟨hh, hb⟩
        · rw [hh]
          by_cases haq : a = ' '
          · have hbq : (b == '\x7b') = false := beq_false_of_ne (fun hbb => hab ⟨haq, hbb⟩)
            simp [hbq]
          · simp [beq_false_of_ne haq]
        · rw [hh]
          subst hb
          have g := pairsOK_pair _ a ' ' rest hww
          have h0 : isWs ' ' = true := by decide
          have ha : isWs a = false := by simpa [h0] using g
          simp [not_space_of_not_ws ha]

/-- Pass 6 establishes: no space after a semicolon; the earlier invariants
survive. -/
theorem stage6 : ∀ l, wsOnlySpace l = true → noWsWs l = true → noColonWs l = true →
    noSlashStar l = true → noBraceSp l = true → noSpBrace l = true →
    wsOnlySpace (replacePair ';' ' ' ';' l) = true
    ∧ noWsWs (replacePair ';' ' ' ';' l) = true
    ∧ noColonWs (replacePair ';' ' ' ';' l) = true
    ∧ noSlashStar (replacePair ';' ' ' ';' l) = true
    ∧ noBraceSp (replacePair ';' ' ' ';' l) = true
    ∧ noSpBrace (replacePair ';' ' ' ';' l) = true
    ∧ noSemiSp (replacePair ';' ' ' ';' l) = true := by
  refine twoStepInduction _ ?_ ?_ ?_
  · intro _ _ _ _ _ _
    exact ⟨rfl, rfl, rfl, rfl, rfl, rfl, rfl⟩
  · intro a hws _ _ _ _ _
    exact ⟨hws, rfl, rfl, rfl, rfl, rfl, rfl⟩
  · intro a b rest ih1 ih2 hws hww hcw hss hbs hpb
    by_cases hab : a = ';' ∧ b = ' '
    · obtain ⟨ha, hb⟩ := hab
      subst ha
      subst hb
      obtain ⟨w6, n6, c6, s6, b6, p6, m6⟩ :=
        ih1 (wsOnly_tail _ _ (wsOnly_tail _ _ hws))
          (pairsOK_tail _ _ _ (pairsOK_tail _ _ _ hww))
          (pairsOK_tail _ _ _ (pairsOK_tail _ _ _ hcw))
          (pairsOK_tail _ _ _ (pairsOK_tail _ _ _ hss))
          (pairsOK_tail _ _ _ (pairsOK_tail _ _ _ hbs))
          (pairsOK_tail _ _ _ (pairsOK_tail _ _ _ hpb))
      have hout : replacePair ';' ' ' ';' (';' :: ' ' :: rest)
          = ';' :: replacePair ';' ' ' ';' rest := by
        rw [replacePair_cons2, if_pos ⟨rfl, rfl⟩]
      rw [hout]
      have hhead : ∀ hd r2, replacePair ';' ' ' ';' rest = hd :: r2 →
          rest.head? = some hd := by
        intro hd r2 hbr
        rw [← replacePair_keepLeft_head ';' ' ' rest, hbr]
        rfl
      have hnws : ∀ hd, rest.head? = some hd → isWs hd = false := by
        intro hd hh
        have g := pairsOK_head_of _ ' ' rest (pairsOK_tail _ _ _ hww) hd hh
        have h0 : isWs ' ' = true := by decide
        simpa [h0] using g
      refine ⟨?_, ?_, ?_, ?_, ?_, ?_, ?_⟩
      · rw [wsOnly_cons, w6]
        decide
      · refine pairsOK_cons _ _ _ n6 ?_
        intro hd r2 hbr
        have h0 : isWs ';' = false := by decide
        simp [h0]
      · refine pairsOK_cons _ _ _ c6 ?_
        intro hd r2 hbr
        have h0 : (';' == ':') = false := by decide
        simp [h0]
      · refine pairsOK_cons _ _ _ s6 ?_
        intro hd r2 hbr
        have h0 : (';' == '/') = false := by decide
        simp [h0]
      · refine pairsOK_cons _ _ _ b6 ?_
        intro hd r2 hbr
        have h0 : (';' == '\x7d') = false := by decide
        simp [h0]
      · refine pairsOK_cons _ _ _ p6 ?_
        intro hd r2 hbr
        have h0 : (';' == ' ') = false := by decide
        simp [h0]
      · refine pairsOK_cons _ _ _ m6 ?_
        intro hd r2 hbr
        have hsp := not_space_of_not_ws (hnws hd (hhead hd r2 hbr))
        simp [hsp]
    · have hout : replacePair ';' ' ' ';' (a :: b :: rest)
          = a :: replacePair ';' ' ' ';' (b :: rest) := by
        rw [replacePair_cons2, if_neg hab]
      rw [hout]
      obtain ⟨w6, n6, c6, s6, b6, p6, m6⟩ :=
        ih2 (wsOnly_tail _ _ hws) (pairsOK_tail _ _ _ hww) (pairsOK_tail _ _ _ hcw)
          (pairsOK_tail _ _ _ hss) (pairsOK_tail _ _ _ hbs) (pairsOK_tail _ _ _ hpb)
      have hheadb : ∀ hd r2, replacePair ';' ' ' ';' (b :: rest) = hd :: r2 → hd = b := by
        intro hd r2 hbr
        have hh := replacePair_keepLeft_head ';' ' ' (b :: rest)
        rw [hbr] at hh
        simp only [List.head?_cons, Option.some.injEq] at hh
        exact hh
      refine ⟨?_, ?_, ?_, ?_, ?_, ?_, ?_⟩
      · rw [wsOnly_cons, w6]
        rw [wsOnly_cons] at hws
        simp only [Bool.and_eq_true] at hws
        simp [hws.1]
      · refine pairsOK_cons _ _ _ n6 ?_
        intro hd r2 hbr
        rw [hheadb hd r2 hbr]
        exact pairsOK_pair _ a b _ hww
      · refine pairsOK_cons _ _ _ c6 ?_
        intro hd r2 hbr
        rw [hheadb hd r2 hbr]
        exact pairsOK_pair _ a b _ hcw
      · refine pairsOK_cons _ _ _ s6 ?_
        intro hd r2 hbr
        rw [hheadb hd r2 hbr]
        exact pairsOK_pair _ a b _ hss
      · refine pairsOK_cons _ _ _ b6 ?_
        intro hd r2 hbr
        rw [hheadb hd r2 hbr]
        exact pairsOK_pair _ a b _ hbs
      · refine pairsOK_cons _ _ _ p6 ?_
        intro hd r2 hbr
        rw [hheadb hd r2 hbr]
        exact pairsOK_pair _ a b _ hpb
      · refine pairsOK_cons _ _ _ m6 ?_
        intro hd r2 hbr
        rw [hheadb hd r2 hbr]
        by_cases haq : a = ';'
        · have hbq : (b == ' ') = false := beq_false_of_ne (fun hbb => hab ⟨haq, hbb⟩)
          simp [hbq]
        · simp [beq_false_of_ne haq]

/-- Pass 7 is the identity when all whitespace is plain spaces. -/
theorem filterNl_id (l : List Char) (h : wsOnlySpace l = true) : filterNl l = l := by
  unfold filterNl
  rw [List.filter_eq_self]
  intro a ha
  have hfact := (List.all_eq_true.mp h) a ha
  simp only [decide_eq_true_eq]
  intro haa
  rw [haa] at hfact
  exact absurd hfact (by decide)

/-- On comment-free input, one run of `compress_css` establishes every
invariant the seven passes check for. -/
theorem compress_invariants (l : List Char) (h : noSlashStar l = true) :
    wsOnlySpace (compressCss l) = true ∧ noWsWs (compressCss l) = true
    ∧ noColonWs (compressCss l) = true ∧ noSlashStar (compressCss l) = true
    ∧ noBraceSp (compressCss l) = true ∧ noSpBrace (compressCss l) = true
    ∧ noSemiSp (compressCss l) = true := by
  obtain ⟨⟨w1, n1, s1⟩, -⟩ := stage1 l h
  obtain ⟨⟨w2, n2, s2, c2⟩, -⟩ := stage2 (cwAux false l) w1 n1 s1
  obtain ⟨w4, n4, c4, s4, b4⟩ := stage4 (scAux false (cwAux false l)) w2 n2 c2 s2
  obtain ⟨w5, n5, c5, s5, b5, p5⟩ := stage5 _ w4 n4 c4 s4 b4
  obtain ⟨w6, n6, c6, s6, b6, p6, m6⟩ := stage6 _ w5 n5 c5 s5 b5 p5
  have hcc : compressCss l
      = filterNl (replacePair ';' ' ' ';' (replacePair ' ' '\x7b' '\x7b'
          (replacePair '\x7d' ' ' '\x7d' (scAux false (cwAux false l))))) := by
    show filterNl (replacePair ';' ' ' ';' (replacePair ' ' '\x7b' '\x7b'
        (replacePair '\x7d' ' ' '\x7d' (cfAux .norm (scAux false (cwAux false l)))))) = _
    rw [(stage3 (scAux false (cwAux false l)) s2).1]
  rw [hcc, filterNl_id _ w6]
  exact ⟨w6, n6, c6, s6, b6, p6, m6⟩

/-- `compress_css` fixes any text satisfying all seven invariants. -/
theorem compressCss_id (l : List Char)
    (hw : wsOnlySpace l = true) (hn : noWsWs l = true) (hc : noColonWs l = true)
    (hs : noSlashStar l = true) (hb : noBraceSp l = true) (hp : noSpBrace l = true)
    (hm : noSemiSp l = true) : compressCss l = l := by
  have h1 : collapseWs l = l := (collapseWs_id l hw hn).1
  have h2 : stripColonWs l = l := (stripColonWs_id l hc).1
  have h3 : stripCF l = l := (stage3 l hs).1
  have h4 : replacePair '\x7d' ' ' '\x7d' l = l := replacePair_id _ _ _ l hb
  have h5 : replacePair ' ' '\x7b' '\x7b' l = l := replacePair_id _ _ _ l hp
  have h6 : replacePair ';' ' ' ';' l = l := replacePair_id _ _ _ l hm
  unfold compressCss
  rw [h1, h2, h3, h4, h5, h6, filterNl_id l hw]

/-- C8, counterexample.  The claim says `compress_css` is idempotent on
every CSS string.  On `a /*x* b` the comment-fragment pass (which runs
*after* whitespace collapsing) deletes `/*x*` and glues two spaces
together, so a second run collapses them: the two runs differ. -/
theorem c8_counterexample :
    compressCss "a /*x* b".toList = "a  b".toList ∧
    compressCss (compressCss "a /*x* b".toList) ≠ compressCss "a /*x* b".toList := by
  decide

/-- C8, amended.  `compress_css` is idempotent on every CSS string that
contains no comment opener `/*`: one run leaves whitespace as isolated
single spaces with no space after `:`/`;`, after `}` or before `{`, no
newline and no `/*`, and each of the seven passes fixes such text.  (With a
`/*` present the comment-fragment pass can create new whitespace runs or a
new `/*`, and idempotence fails — see the counterexample.) -/
theorem c8_minify_idempotent_comment_free (l : List Char) (h : noSlashStar l = true) :
    compressCss (compressCss l) = compressCss l := by
  obtain ⟨w, n, c, s, b, p, m⟩ := compress_invariants l h
  exact compressCss_id _ w n c s b p m

/-- C8, witness: ordinary comment-free CSS. -/
theorem c8_minify_idempotent_comment_free_witness :
    compressCss (compressCss "body \x7b color: red; \x7d".toList)
      = compressCss "body \x7b color: red; \x7d".toList :=
  c8_minify_idempotent_comment_free "body \x7b color: red; \x7d".toList (by decide)

end Inliner
